import Mathlib

/-!
# go-todo-list: a verification development of `todo.go`

The program keeps a list of tasks in the file `tasks.json`.  Every operation
reads the whole file, changes the list in memory and writes the whole file back.

The development has three layers.

* Bytes and UTF-8: Go strings and file contents are byte sequences.
* The part of `encoding/json` the program uses: `json.MarshalIndent` and
  `json.Unmarshal` at the type `[]Task`.
* The program itself: `readTasksFromFile`, `writeTasksToFile`, `addTask`,
  `listTasks`, `markTaskComplete` and `main`, over an explicit world
  (the file, the faults of the file system, standard output).
-/

namespace TodoList

/-! ## Bytes and UTF-8 (`unicode/utf8`) -/

/-- A Go string or the contents of a file: a sequence of bytes, each a natural
number (below 256). -/
abbrev Bytes := List Nat

/-- The replacement rune U+FFFD (`utf8.RuneError`). -/
def RuneError : Nat := 0xFFFD

/-- `utf8.EncodeRune`: the UTF-8 bytes of a rune; a surrogate or a value past
U+10FFFF is written as U+FFFD. -/
def encodeRune (c : Nat) : Bytes :=
  if c < 0x80 then [c]
  else if c < 0x800 then [0xC0 + c / 64, 0x80 + c % 64]
  else if 0xD800 ≤ c ∧ c < 0xE000 then [0xEF, 0xBF, 0xBD]
  else if c < 0x10000 then [0xE0 + c / 4096, 0x80 + c / 64 % 64, 0x80 + c % 64]
  else if c < 0x110000 then
    [0xF0 + c / 262144, 0x80 + c / 4096 % 64, 0x80 + c / 64 % 64, 0x80 + c % 64]
  else [0xEF, 0xBF, 0xBD]

/-- The least second byte accepted after the first byte `b0` (the
`acceptRanges` of `unicode/utf8`). -/
def acceptLo (b0 : Nat) : Nat :=
  if b0 = 0xE0 then 0xA0 else if b0 = 0xF0 then 0x90 else 0x80

/-- The greatest second byte accepted after the first byte `b0`. -/
def acceptHi (b0 : Nat) : Nat :=
  if b0 = 0xED then 0x9F else if b0 = 0xF4 then 0x8F else 0xBF

/-- `utf8.DecodeRune`: the first rune of a byte sequence and the number of bytes
it takes.  An invalid or truncated encoding gives `(RuneError, 1)`, the empty
sequence `(RuneError, 0)`. -/
def decodeRune : Bytes → Nat × Nat
  | [] => (RuneError, 0)
  | b0 :: r =>
    if b0 < 0x80 then (b0, 1)
    else if b0 < 0xC2 then (RuneError, 1)
    else if b0 < 0xE0 then
      match r with
      | b1 :: _ =>
        if 0x80 ≤ b1 ∧ b1 ≤ 0xBF then ((b0 - 0xC0) * 64 + (b1 - 0x80), 2)
        else (RuneError, 1)
      | [] => (RuneError, 1)
    else if b0 < 0xF0 then
      match r with
      | b1 :: b2 :: _ =>
        if acceptLo b0 ≤ b1 ∧ b1 ≤ acceptHi b0 ∧ 0x80 ≤ b2 ∧ b2 ≤ 0xBF then
          ((b0 - 0xE0) * 4096 + (b1 - 0x80) * 64 + (b2 - 0x80), 3)
        else (RuneError, 1)
      | _ => (RuneError, 1)
    else if b0 < 0xF5 then
      match r with
      | b1 :: b2 :: b3 :: _ =>
        if acceptLo b0 ≤ b1 ∧ b1 ≤ acceptHi b0 ∧ 0x80 ≤ b2 ∧ b2 ≤ 0xBF
            ∧ 0x80 ≤ b3 ∧ b3 ≤ 0xBF then
          ((b0 - 0xF0) * 262144 + (b1 - 0x80) * 4096 + (b2 - 0x80) * 64 + (b3 - 0x80), 4)
        else (RuneError, 1)
      | _ => (RuneError, 1)
    else (RuneError, 1)

/-- A string coerced to valid UTF-8: every byte that does not start a valid
encoding is replaced by the encoding of U+FFFD, everything else is kept.  The
first argument bounds the number of steps; the length of the string is enough. -/
def toValidUTF8Aux : Nat → Bytes → Bytes
  | 0, _ => []
  | _, [] => []
  | f + 1, b :: r =>
    if b < 0x80 then b :: toValidUTF8Aux f r
    else encodeRune (decodeRune (b :: r)).1 ++ toValidUTF8Aux f (r.drop ((decodeRune (b :: r)).2 - 1))

/-- A string coerced to valid UTF-8, as `encoding/json` stores it. -/
def toValidUTF8 (s : Bytes) : Bytes := toValidUTF8Aux s.length s

/-- A byte sequence is valid UTF-8 when the coercion leaves it alone. -/
def ValidUTF8 (s : Bytes) : Prop := toValidUTF8 s = s

instance (s : Bytes) : Decidable (ValidUTF8 s) := by
  unfold ValidUTF8; infer_instance

/-- The UTF-8 bytes of a text given as Unicode scalar values. -/
def utf8 (s : String) : Bytes := s.data.flatMap (fun c => encodeRune c.toNat)

/-! ## Tasks -/

/-- The Go struct `Task`: `ID int`, `Title string`, `Complete bool`. -/
structure Task where
  ID : Int
  Title : Bytes
  Complete : Bool
deriving DecidableEq, Repr

/-- Whether an integer is a value of Go's `int` (64 bits). -/
def InInt64 (i : Int) : Prop := -(2 ^ 63 : Int) ≤ i ∧ i < 2 ^ 63

instance (i : Int) : Decidable (InInt64 i) := by
  unfold InInt64; infer_instance

/-- Go's `int` arithmetic wraps around at 64 bits. -/
def wrapInt64 (i : Int) : Int := (i + 2 ^ 63) % 2 ^ 64 - 2 ^ 63

/-! ## `encoding/json`: writing (`json.MarshalIndent(tasks, "", "  ")`) -/

/-- A digit of `"0123456789abcdef"`. -/
def hexDigit (n : Nat) : Nat := if n < 10 then 0x30 + n else 0x57 + n

/-- How `appendString` writes one ASCII byte (HTML escaping is on, as in
`json.Marshal`): `\\` and `\"`, the short escapes for backspace, form feed,
newline, carriage return and tab, `\u00XX` for the other control bytes and for
`&`, `<`, `>`, and the byte itself otherwise.  (Older releases of Go write
backspace and form feed as `\u0008` and `\u000c`; `scanString` reads both forms
as the same byte.) -/
def escapeByte (b : Nat) : Bytes :=
  if b = 0x5C ∨ b = 0x22 then [0x5C, b]
  else if b = 0x08 then [0x5C, 0x62]
  else if b = 0x0C then [0x5C, 0x66]
  else if b = 0x0A then [0x5C, 0x6E]
  else if b = 0x0D then [0x5C, 0x72]
  else if b = 0x09 then [0x5C, 0x74]
  else if b < 0x20 ∨ b = 0x26 ∨ b = 0x3C ∨ b = 0x3E then
    [0x5C, 0x75, 0x30, 0x30, hexDigit (b / 16), hexDigit (b % 16)]
  else [b]

/-- The loop of `appendString` over the bytes of a Go string: ASCII bytes are
escaped one by one; a byte that starts no valid UTF-8 encoding is written as
U+FFFD, the three bytes `EF BF BD`; U+2028 and U+2029 are written as `\u2028`
and `\u2029`; every other encoded rune is copied.  The first argument bounds the
number of steps.  (Some releases of Go write the escape `\ufffd` for such a
byte; `scanString` reads both forms as U+FFFD, and a string that is valid UTF-8
has no such byte.) -/
def appendStringAux : Nat → Bytes → Bytes
  | 0, _ => []
  | _, [] => []
  | f + 1, b :: r =>
    if b < 0x80 then escapeByte b ++ appendStringAux f r
    else if decodeRune (b :: r) = (RuneError, 1) then
      [0xEF, 0xBF, 0xBD] ++ appendStringAux f r
    else if (decodeRune (b :: r)).1 = 0x2028 ∨ (decodeRune (b :: r)).1 = 0x2029 then
      [0x5C, 0x75, 0x32, 0x30, 0x32, hexDigit ((decodeRune (b :: r)).1 % 16)]
        ++ appendStringAux f (r.drop ((decodeRune (b :: r)).2 - 1))
    else
      (b :: r).take (decodeRune (b :: r)).2
        ++ appendStringAux f (r.drop ((decodeRune (b :: r)).2 - 1))

/-- A Go string as a JSON string literal, between double quotes. -/
def appendString (s : Bytes) : Bytes := 0x22 :: (appendStringAux s.length s ++ [0x22])

/-- The decimal digits of a natural number, most significant first, put in
front of `acc`.  The first argument bounds the number of digits. -/
def formatNatAux : Nat → Nat → Bytes → Bytes
  | 0, _, acc => acc
  | f + 1, n, acc =>
    if n < 10 then (0x30 + n) :: acc else formatNatAux f (n / 10) ((0x30 + n % 10) :: acc)

/-- The decimal digits of a natural number. -/
def formatNat (n : Nat) : Bytes := formatNatAux (n + 1) n []

/-- An integer in decimal (`strconv.AppendInt(_, i, 10)`, the verb `%d`). -/
def formatInt (i : Int) : Bytes :=
  if i < 0 then 0x2D :: formatNat i.natAbs else formatNat i.toNat

/-- The text `true` or `false`. -/
def formatBool (b : Bool) : Bytes :=
  if b then [0x74, 0x72, 0x75, 0x65] else [0x66, 0x61, 0x6C, 0x73, 0x65]

/-- One task as an indented JSON object, at depth one of the array:
two blanks before the braces, four before each member, `": "` after each key. -/
def marshalTask (t : Task) : Bytes :=
  -- `  {` newline `    "id": `
  [0x20, 0x20, 0x7B, 0x0A, 0x20, 0x20, 0x20, 0x20, 0x22, 0x69, 0x64, 0x22, 0x3A, 0x20]
    ++ formatInt t.ID
    -- `,` newline `    "title": `
    ++ [0x2C, 0x0A, 0x20, 0x20, 0x20, 0x20, 0x22, 0x74, 0x69, 0x74, 0x6C, 0x65, 0x22, 0x3A, 0x20]
    ++ appendString t.Title
    -- `,` newline `    "complete": `
    ++ [0x2C, 0x0A, 0x20, 0x20, 0x20, 0x20, 0x22, 0x63, 0x6F, 0x6D, 0x70, 0x6C, 0x65, 0x74,
        0x65, 0x22, 0x3A, 0x20]
    ++ formatBool t.Complete
    -- newline `  }`
    ++ [0x0A, 0x20, 0x20, 0x7D]

/-- The tasks after the first, each after `,` and a newline, then a newline and
the closing bracket. -/
def marshalRest : List Task → Bytes
  | [] => [0x0A, 0x5D]
  | t :: ts => [0x2C, 0x0A] ++ marshalTask t ++ marshalRest ts

/-- The JSON array written for a slice that is not nil: `[]` when it has no
element, otherwise one indented object per task between `[` and `]`. -/
def marshalArray : List Task → Bytes
  | [] => [0x5B, 0x5D]
  | t :: ts => [0x5B, 0x0A] ++ marshalTask t ++ marshalRest ts

/-- A value of the Go type `[]Task`: the nil slice, or a slice with its
elements (none, for a slice that is empty and not nil). -/
inductive TaskSlice where
  | nil
  | slice (tasks : List Task)
deriving DecidableEq, Repr

/-- The elements of a slice; the nil slice has none. -/
def TaskSlice.toList : TaskSlice → List Task
  | TaskSlice.nil => []
  | TaskSlice.slice tasks => tasks

/-- The bytes `json.MarshalIndent(tasks, "", "  ")` gives for a `[]Task`: `null`
for the nil slice, the JSON array of the elements otherwise.  Marshalling a
`[]Task` never fails. -/
def marshalIndent : TaskSlice → Bytes
  | TaskSlice.nil => [0x6E, 0x75, 0x6C, 0x6C]
  | TaskSlice.slice tasks => marshalArray tasks

/-! ## `encoding/json`: reading (`json.Unmarshal(data, &tasks)`) -/

/-- A JSON text as `encoding/json` scans it: a number keeps its literal, a
string and a key are unquoted. -/
inductive JValue where
  | null
  | bool (b : Bool)
  | num (lit : Bytes)
  | str (s : Bytes)
  | arr (elems : List JValue)
  | obj (members : List (Bytes × JValue))

/-- Skips JSON white space: blank, tab, carriage return, newline. -/
def skipSpace : Bytes → Bytes
  | [] => []
  | b :: r => if b = 0x20 ∨ b = 0x09 ∨ b = 0x0D ∨ b = 0x0A then skipSpace r else b :: r

/-- The value of a hexadecimal digit, of either case. -/
def hexVal (b : Nat) : Option Nat :=
  if 0x30 ≤ b ∧ b ≤ 0x39 then some (b - 0x30)
  else if 0x61 ≤ b ∧ b ≤ 0x66 then some (b - 0x57)
  else if 0x41 ≤ b ∧ b ≤ 0x46 then some (b - 0x37)
  else none

/-- Four hexadecimal digits and what follows them. -/
def hex4 : Bytes → Option (Nat × Bytes)
  | a :: b :: c :: d :: r =>
    match hexVal a, hexVal b, hexVal c, hexVal d with
    | some x, some y, some z, some u => some (((x * 16 + y) * 16 + z) * 16 + u, r)
    | _, _, _, _ => none
  | _ => none

/-- `getu4`: an escape `\uXXXX` at the head of the input. -/
def getu4 : Bytes → Option (Nat × Bytes)
  | b :: u :: r => if b = 0x5C ∧ u = 0x75 then hex4 r else none
  | _ => none

/-- The byte a one-letter escape stands for. -/
def unescape (e : Nat) : Option Nat :=
  if e = 0x22 ∨ e = 0x5C ∨ e = 0x2F then some e
  else if e = 0x62 then some 0x08
  else if e = 0x66 then some 0x0C
  else if e = 0x6E then some 0x0A
  else if e = 0x72 then some 0x0D
  else if e = 0x74 then some 0x09
  else none

/-- Puts bytes in front of the string a scan gave. -/
def prepend (xs : Bytes) : Option (Bytes × Bytes) → Option (Bytes × Bytes)
  | some (s, r) => some (xs ++ s, r)
  | none => none

/-- Scans a JSON string after its opening quote and unquotes it (`unquote`):
gives the string and the input after the closing quote.  Escapes are resolved,
a pair of surrogate escapes gives one rune, a lone surrogate gives U+FFFD, and
bytes that are not valid UTF-8 are coerced to U+FFFD.  A control byte, an
unknown escape or a missing closing quote is a syntax error.  The first argument
bounds the number of steps; the length of the input is enough. -/
def scanString : Nat → Bytes → Option (Bytes × Bytes)
  | 0, _ => none
  | _, [] => none
  | f + 1, b :: r =>
    if b = 0x22 then some ([], r)
    else if b = 0x5C then
      match r with
      | [] => none
      | e :: r1 =>
        if e = 0x75 then
          match hex4 r1 with
          | none => none
          | some (rr, r2) =>
            if 0xD800 ≤ rr ∧ rr < 0xE000 then
              match getu4 r2 with
              | some (rr1, r3) =>
                if rr < 0xDC00 ∧ 0xDC00 ≤ rr1 ∧ rr1 < 0xE000 then
                  prepend (encodeRune ((rr - 0xD800) * 1024 + (rr1 - 0xDC00) + 0x10000))
                    (scanString f r3)
                else prepend (encodeRune RuneError) (scanString f r2)
              | none => prepend (encodeRune RuneError) (scanString f r2)
            else prepend (encodeRune rr) (scanString f r2)
        else
          match unescape e with
          | some x => prepend [x] (scanString f r1)
          | none => none
    else if b < 0x20 then none
    else if b < 0x80 then prepend [b] (scanString f r)
    else
      prepend (encodeRune (decodeRune (b :: r)).1)
        (scanString f (r.drop ((decodeRune (b :: r)).2 - 1)))

/-- The longest run of decimal digits at the head of the input, and the rest. -/
def spanDigits : Bytes → Bytes × Bytes
  | [] => ([], [])
  | b :: r =>
    if 0x30 ≤ b ∧ b ≤ 0x39 then (b :: (spanDigits r).1, (spanDigits r).2) else ([], b :: r)

/-- The integer part of a JSON number: `0`, or a digit from 1 to 9 and more digits. -/
def scanIntPart : Bytes → Option (Bytes × Bytes)
  | [] => none
  | b :: r =>
    if b = 0x30 then some ([b], r)
    else if 0x31 ≤ b ∧ b ≤ 0x39 then some (b :: (spanDigits r).1, (spanDigits r).2)
    else none

/-- The optional fraction of a JSON number: `.` and at least one digit. -/
def scanFrac : Bytes → Option (Bytes × Bytes)
  | [] => some ([], [])
  | b :: r =>
    if b = 0x2E then
      match spanDigits r with
      | ([], _) => none
      | (d :: ds, r1) => some (b :: d :: ds, r1)
    else some ([], b :: r)

/-- An optional sign of an exponent. -/
def scanSign : Bytes → Bytes × Bytes
  | [] => ([], [])
  | c :: r => if c = 0x2B ∨ c = 0x2D then ([c], r) else ([], c :: r)

/-- The optional exponent of a JSON number: `e` or `E`, an optional sign and at
least one digit. -/
def scanExp : Bytes → Option (Bytes × Bytes)
  | [] => some ([], [])
  | b :: r =>
    if b = 0x65 ∨ b = 0x45 then
      match spanDigits (scanSign r).2 with
      | ([], _) => none
      | (d :: ds, r1) => some (b :: ((scanSign r).1 ++ d :: ds), r1)
    else some ([], b :: r)

/-- Scans a JSON number: gives its literal and the input after it. -/
def scanNumber (s : Bytes) : Option (Bytes × Bytes) :=
  match s with
  | [] => none
  | b :: r =>
    match scanIntPart (if b = 0x2D then r else b :: r) with
    | none => none
    | some (i, s2) =>
      match scanFrac s2 with
      | none => none
      | some (fr, s3) =>
        match scanExp s3 with
        | none => none
        | some (e, s4) => some ((if b = 0x2D then [b] else []) ++ i ++ fr ++ e, s4)

/-- The elements of a non-empty array after `[`, given the scanner `pv` of one
value: values separated by `,` up to `]`, white space allowed around each.  The
first argument bounds the number of elements; the length of the input is
enough. -/
def parseElems (pv : Bytes → Option (JValue × Bytes)) :
    Nat → Bytes → Option (List JValue × Bytes)
  | 0, _ => none
  | f + 1, s =>
    match pv (skipSpace s) with
    | none => none
    | some (v, r) =>
      match skipSpace r with
      | c :: r1 =>
        if c = 0x5D then some ([v], r1)
        else if c = 0x2C then
          match parseElems pv f r1 with
          | some (vs, r2) => some (v :: vs, r2)
          | none => none
        else none
      | [] => none

/-- One member of an object, given the scanner `pv` of one value: white space,
a string as the key, `:`, and a value, white space allowed around the colon. -/
def parseMember (pv : Bytes → Option (JValue × Bytes)) (s : Bytes) :
    Option ((Bytes × JValue) × Bytes) :=
  match skipSpace s with
  | [] => none
  | q :: r0 =>
    if q = 0x22 then
      match scanString r0.length r0 with
      | none => none
      | some (key, r1) =>
        match skipSpace r1 with
        | [] => none
        | c :: r2 =>
          if c = 0x3A then
            match pv (skipSpace r2) with
            | none => none
            | some (v, r3) => some ((key, v), r3)
          else none
    else none

/-- The members of a non-empty object after `{`: members separated by `,` up
to `}`.  The first argument bounds the number of members; the length of the
input is enough. -/
def parseMembers (pv : Bytes → Option (JValue × Bytes)) :
    Nat → Bytes → Option (List (Bytes × JValue) × Bytes)
  | 0, _ => none
  | f + 1, s =>
    match parseMember pv s with
    | none => none
    | some (m, r3) =>
      match skipSpace r3 with
      | [] => none
      | e :: r4 =>
        if e = 0x7D then some ([m], r4)
        else if e = 0x2C then
          match parseMembers pv f r4 with
          | some (ms, r5) => some (m :: ms, r5)
          | none => none
        else none

/-- The head of the input after white space. -/
def peek (s : Bytes) : Option Nat := (skipSpace s).head?

/-- Scans one JSON value at the head of the input (no white space before it),
given the scanner `inner` of the values inside an array or object, which is
`none` when no further nesting is allowed: gives the value and the input after
it, or nothing on a syntax error. -/
def parseValueWith (inner : Option (Bytes → Option (JValue × Bytes))) (s : Bytes) :
    Option (JValue × Bytes) :=
  match s with
  | [] => none
  | b :: r =>
    if b = 0x22 then
      match scanString r.length r with
      | some (str, r1) => some (JValue.str str, r1)
      | none => none
    else if b = 0x6E then
      (if r.take 3 = [0x75, 0x6C, 0x6C] then some (JValue.null, r.drop 3) else none)
    else if b = 0x74 then
      (if r.take 3 = [0x72, 0x75, 0x65] then some (JValue.bool true, r.drop 3) else none)
    else if b = 0x66 then
      (if r.take 4 = [0x61, 0x6C, 0x73, 0x65] then some (JValue.bool false, r.drop 4) else none)
    else if b = 0x5B then
      match inner with
      | none => none
      | some pv =>
        if peek r = some 0x5D then some (JValue.arr [], (skipSpace r).drop 1)
        else
          match parseElems pv r.length r with
          | some (vs, r1) => some (JValue.arr vs, r1)
          | none => none
    else if b = 0x7B then
      match inner with
      | none => none
      | some pv =>
        if peek r = some 0x7D then some (JValue.obj [], (skipSpace r).drop 1)
        else
          match parseMembers pv r.length r with
          | some (ms, r1) => some (JValue.obj ms, r1)
          | none => none
    else
      match scanNumber (b :: r) with
      | some (lit, r1) => some (JValue.num lit, r1)
      | none => none

/-- Scans one JSON value at the head of the input.  The first argument is the
number of arrays and objects that may still be opened inside one another;
`encoding/json` allows 10000. -/
def parseValue : Nat → Bytes → Option (JValue × Bytes)
  | 0 => parseValueWith none
  | d + 1 => parseValueWith (some (parseValue d))

/-- The nesting `encoding/json` allows (`maxNestingDepth`). -/
def maxNestingDepth : Nat := 10000

/-- The whole input as one JSON value, white space allowed before and after
(`checkValid` and the scan of `Unmarshal`). -/
def parseJSON (data : Bytes) : Option JValue :=
  match parseValue maxNestingDepth (skipSpace data) with
  | some (v, r) => if skipSpace r = [] then some v else none
  | none => none

/-- The errors of the program's calls. -/
inductive Error where
  /-- `ioutil.ReadFile` failed for a reason other than a missing file -/
  | readFailed
  /-- `json.Unmarshal`: the file is not a JSON text (`*json.SyntaxError`) -/
  | invalidJSON
  /-- `json.Unmarshal`: a JSON value does not fit its Go type
  (`*json.UnmarshalTypeError`) -/
  | typeMismatch
  /-- `ioutil.WriteFile` failed -/
  | writeFailed
  /-- `fmt.Scanln` failed -/
  | scanFailed
deriving DecidableEq, Repr

/-- The value of a run of decimal digits read after `acc`; nothing when a byte
is no digit. -/
def digitsValue : Bytes → Nat → Option Nat
  | [], acc => some acc
  | b :: r, acc => if 0x30 ≤ b ∧ b ≤ 0x39 then digitsValue r (acc * 10 + (b - 0x30)) else none

/-- A JSON number literal as a Go `int` (`strconv.ParseInt(lit, 10, 64)`):
nothing when the literal has a fraction or an exponent or is out of range. -/
def parseInt64 : Bytes → Option Int
  | [] => none
  | b :: r =>
    if b = 0x2D then
      match r with
      | [] => none
      | _ :: _ =>
        match digitsValue r 0 with
        | some n => if n ≤ 2 ^ 63 then some (-(n : Int)) else none
        | none => none
    else
      match digitsValue (b :: r) 0 with
      | some n => if n < 2 ^ 63 then some (n : Int) else none
      | none => none

/-- A key folded for the case-insensitive match of struct fields: ASCII
lower-case letters become upper-case.  (The field names here have no `k` and no
`s`, the two letters that non-ASCII runes fold to.) -/
def foldName (key : Bytes) : Bytes :=
  key.map (fun b => if 0x61 ≤ b ∧ b ≤ 0x7A then b - 0x20 else b)

/-- Stores a JSON value in the field `ID`: `null` leaves the field alone, a
number must be an `int`, any other value is an error. -/
def storeID (t : Task) : JValue → Except Error Task
  | JValue.null => .ok t
  | JValue.num lit =>
    match parseInt64 lit with
    | some i => .ok { t with ID := i }
    | none => .error Error.typeMismatch
  | _ => .error Error.typeMismatch

/-- Stores a JSON value in the field `Title`: `null` leaves the field alone,
any value other than a string is an error. -/
def storeTitle (t : Task) : JValue → Except Error Task
  | JValue.null => .ok t
  | JValue.str s => .ok { t with Title := s }
  | _ => .error Error.typeMismatch

/-- Stores a JSON value in the field `Complete`: `null` leaves the field alone,
any value other than `true` or `false` is an error. -/
def storeComplete (t : Task) : JValue → Except Error Task
  | JValue.null => .ok t
  | JValue.bool b => .ok { t with Complete := b }
  | _ => .error Error.typeMismatch

/-- Stores one member of a JSON object in a task.  The key is matched with the
tags `id`, `title`, `complete` without regard to case; a member with another key
is skipped. -/
def setField (t : Task) (key : Bytes) (v : JValue) : Except Error Task :=
  if foldName key = [0x49, 0x44] then storeID t v
  else if foldName key = [0x54, 0x49, 0x54, 0x4C, 0x45] then storeTitle t v
  else if foldName key = [0x43, 0x4F, 0x4D, 0x50, 0x4C, 0x45, 0x54, 0x45] then storeComplete t v
  else .ok t

/-- Stores the members of a JSON object in a task, in order: a later member
with the same key wins. -/
def setFields : Task → List (Bytes × JValue) → Except Error Task
  | t, [] => .ok t
  | t, (k, v) :: ms =>
    match setField t k v with
    | .ok t1 => setFields t1 ms
    | .error e => .error e

/-- One element of the array as a task: an object fills a zero task, `null`
leaves the zero task, any other value is an error. -/
def decodeTask : JValue → Except Error Task
  | JValue.obj ms => setFields ⟨0, [], false⟩ ms
  | JValue.null => .ok ⟨0, [], false⟩
  | _ => .error Error.typeMismatch

/-- The elements of the array as tasks. -/
def decodeElems : List JValue → Except Error (List Task)
  | [] => .ok []
  | v :: vs =>
    match decodeTask v with
    | .error e => .error e
    | .ok t =>
      match decodeElems vs with
      | .error e => .error e
      | .ok ts => .ok (t :: ts)

/-- A JSON value as a `[]Task`: an array gives its tasks, `null` leaves the nil
slice it is decoded into, any other value is an error. -/
def decodeTasks : JValue → Except Error (List Task)
  | JValue.arr vs => decodeElems vs
  | JValue.null => .ok []
  | _ => .error Error.typeMismatch

/-- What `json.Unmarshal(data, &tasks)` gives for `var tasks []Task`: a syntax
error when the data is no JSON text, otherwise the decoded list or a type
error. -/
def unmarshal (data : Bytes) : Except Error (List Task) :=
  match parseJSON data with
  | none => .error Error.invalidJSON
  | some v => decodeTasks v

/-! ## The world of the program -/

/-- What the program can see and change: the file `tasks.json` (the constant
`fileName`) in the working directory, how the file system answers, and what has
been written to standard output. -/
structure World where
  /-- the contents of `tasks.json`; `none` when there is no such file -/
  file : Option Bytes
  /-- whether `ioutil.ReadFile` fails for a reason other than a missing file -/
  readFault : Bool
  /-- `none` when `ioutil.WriteFile` succeeds; `some f` when it fails and
  leaves the file as `f` -/
  writeFault : Option (Option Bytes)
  /-- the texts written to standard output, one for each call of `fmt.Print`,
  `fmt.Println` or `fmt.Printf`, oldest first -/
  stdout : List Bytes
deriving DecidableEq, Repr

/-- One call that writes a text to standard output. -/
def World.print (w : World) (text : Bytes) : World :=
  { w with stdout := w.stdout ++ [text] }

/-- What `ioutil.ReadFile(fileName)` gives. -/
inductive FileRead where
  | data (bytes : Bytes)
  /-- an error for which `os.IsNotExist` holds -/
  | notExist
  /-- any other error -/
  | failed
deriving DecidableEq, Repr

/-- The call `ioutil.ReadFile(fileName)`. -/
def readFile (w : World) : FileRead :=
  if w.readFault then FileRead.failed
  else
    match w.file with
    | some bytes => FileRead.data bytes
    | none => FileRead.notExist

/-- The call `ioutil.WriteFile(fileName, data, 0644)`: the world after it and
the error, `none` for Go's `nil`. -/
def writeFile (data : Bytes) (w : World) : World × Option Error :=
  match w.writeFault with
  | none => ({ w with file := some data }, none)
  | some left => ({ w with file := left }, some Error.writeFailed)

/-- How a function of the program ends. -/
inductive Outcome where
  /-- the function returned to its caller -/
  | returned (w : World)
  /-- `log.Fatal(msg, err)`: the message is logged to standard error and the
  process exits with status 1 -/
  | fatal (w : World) (msg : String) (err : Error)
deriving DecidableEq, Repr

deriving instance DecidableEq for Except

/-! ## Formatting (`fmt`) -/

/-- A `Task` under the verb `%v`: the fields between braces, blanks between. -/
def formatTask (t : Task) : Bytes :=
  [0x7B] ++ formatInt t.ID ++ [0x20] ++ t.Title ++ [0x20] ++ formatBool t.Complete ++ [0x7D]

/-- The text `fmt.Println` writes: the operands with a blank between each two,
and a newline. -/
def sprintln : List Bytes → Bytes
  | [] => [0x0A]
  | [a] => a ++ [0x0A]
  | a :: b :: rest => a ++ [0x20] ++ sprintln (b :: rest)

/-- The status shown for a task by `listTasks`. -/
def statusText (complete : Bool) : Bytes :=
  if complete then utf8 "Выполнено" else utf8 "Не выполнено"

/-- The text `fmt.Printf("%d. %s [%s]\n", task.ID, task.Title, status)` writes. -/
def taskLine (t : Task) : Bytes :=
  formatInt t.ID ++ [0x2E, 0x20] ++ t.Title ++ [0x20, 0x5B] ++ statusText t.Complete
    ++ [0x5D, 0x0A]

/-! ## The program (`todo.go`) -/

/-- The name of the file that holds the tasks. -/
def fileName : String := "tasks.json"

/-- `readTasksFromFile`: no task when the file does not exist, an error when
the file cannot be read or does not decode, the decoded tasks otherwise.  The
result is the list of the elements of the slice returned: the callers take its
length, range over it, index it and append to it, none of which tells the nil
slice from an empty one. -/
def readTasksFromFile (w : World) : Except Error (List Task) :=
  match readFile w with
  | FileRead.notExist => .ok []
  | FileRead.failed => .error Error.readFailed
  | FileRead.data bytes =>
    match unmarshal bytes with
    | .error e => .error e
    | .ok tasks => .ok tasks

/-- `writeTasksToFile`: marshals the tasks (this cannot fail for a `[]Task`)
and writes the bytes to the file. -/
def writeTasksToFile (tasks : TaskSlice) (w : World) : World × Option Error :=
  writeFile (marshalIndent tasks) w

/-- `addTask`.  The slice written is the result of `append`, which is not nil. -/
def addTask (title : Bytes) (w : World) : Outcome :=
  match readTasksFromFile w with
  | .error e => Outcome.fatal w "Ошибка при чтении задач:" e
  | .ok tasks =>
    let task : Task := ⟨wrapInt64 (tasks.length + 1), title, false⟩
    match writeTasksToFile (TaskSlice.slice (tasks ++ [task])) w with
    | (w1, some e) => Outcome.fatal w1 "Ошибка при записи задач:" e
    | (w1, none) =>
      Outcome.returned (w1.print (sprintln [utf8 "Задача добавлена:", formatTask task]))

/-- The loop of `listTasks`: one line for each task, in order. -/
def printTasks : List Task → World → World
  | [], w => w
  | t :: ts, w => printTasks ts (w.print (taskLine t))

/-- `listTasks`. -/
def listTasks (w : World) : Outcome :=
  match readTasksFromFile w with
  | .error e => Outcome.fatal w "Ошибка при чтении задач:" e
  | .ok tasks =>
    if tasks.length = 0 then
      Outcome.returned (w.print (sprintln [utf8 "Нет задач для отображения."]))
    else
      Outcome.returned (printTasks tasks (w.print (sprintln [utf8 "Список задач:"])))

/-- The search loop of `markTaskComplete` from index `i` on: the index of the
first task with the given `ID`, or `-1`. -/
def findTask (id : Int) : List Task → Nat → Int
  | [], _ => -1
  | t :: ts, i => if t.ID = id then (i : Int) else findTask id ts (i + 1)

/-- The assignment `tasks[i].Complete = true`. -/
def setComplete : List Task → Nat → List Task
  | [], _ => []
  | t :: ts, 0 => { t with Complete := true } :: ts
  | t :: ts, i + 1 => t :: setComplete ts i

/-- `markTaskComplete`.  The slice written holds the task found, so it is not nil. -/
def markTaskComplete (id : Int) (w : World) : Outcome :=
  match readTasksFromFile w with
  | .error e => Outcome.fatal w "Ошибка при чтении задач:" e
  | .ok tasks =>
    let taskIndex := findTask id tasks 0
    if taskIndex = -1 then
      Outcome.returned (w.print (sprintln [utf8 "Задача с таким ID не найдена."]))
    else
      let tasks1 := setComplete tasks taskIndex.toNat
      match writeTasksToFile (TaskSlice.slice tasks1) w with
      | (w1, some e) => Outcome.fatal w1 "Ошибка при записи задач:" e
      | (w1, none) =>
        Outcome.returned (w1.print (sprintln [utf8 "Задача отмечена как выполненная:",
          formatTask (tasks1.getD taskIndex.toNat ⟨0, [], false⟩)]))

/-- What the calls of `fmt.Scanln` of one round of the menu give: the standard
input is seen through them. -/
structure Turn where
  /-- whether `fmt.Scanln(&choice)` returned an error (a line that is no
  integer, an empty line, the end of the input) -/
  choiceFailed : Bool
  /-- the value `fmt.Scanln(&choice)` left in `choice` -/
  choice : Int
  /-- the value `fmt.Scanln(&title)` leaves in `title`, when the round asks for
  it (`fmt.Scanln` builds it from the runes it reads, so it is always valid
  UTF-8; nothing below relies on that) -/
  title : Bytes
  /-- the value `fmt.Scanln(&id)` leaves in `id`, when the round asks for it -/
  id : Int
deriving DecidableEq, Repr

/-- The menu and the prompt, as `main` prints them at the start of a round. -/
def printMenu (w : World) : World :=
  (((((w.print (sprintln [utf8 "\nМенеджер задач - To-Do List"])).print
    (sprintln [utf8 "1. Показать все задачи"])).print
    (sprintln [utf8 "2. Добавить задачу"])).print
    (sprintln [utf8 "3. Отметить задачу как выполненную"])).print
    (sprintln [utf8 "4. Выйти"])).print
    (utf8 "Выберите опцию: ")

/-- `main`: the menu loop over the rounds of input.  When the input is used up
`fmt.Scanln` fails with the end of the input. -/
def main : World → List Turn → Outcome
  | w, [] => Outcome.fatal (printMenu w) "Ошибка ввода:" Error.scanFailed
  | w, t :: rest =>
    if t.choiceFailed then Outcome.fatal (printMenu w) "Ошибка ввода:" Error.scanFailed
    else if t.choice = 1 then
      match listTasks (printMenu w) with
      | Outcome.returned w1 => main w1 rest
      | halted => halted
    else if t.choice = 2 then
      match addTask t.title ((printMenu w).print (utf8 "Введите название задачи: ")) with
      | Outcome.returned w1 => main w1 rest
      | halted => halted
    else if t.choice = 3 then
      match markTaskComplete t.id ((printMenu w).print
          (utf8 "Введите ID задачи для пометки как выполненную: ")) with
      | Outcome.returned w1 => main w1 rest
      | halted => halted
    else if t.choice = 4 then
      Outcome.returned ((printMenu w).print (sprintln [utf8 "Выход из программы."]))
    else
      main ((printMenu w).print
        (sprintln [utf8 "Неверный выбор. Пожалуйста, выберите опцию снова."])) rest

/-! ## Notions used in the statements and proofs -/

/-- A Unicode scalar value: a rune up to U+10FFFF that is no surrogate. -/
def ValidRune (c : Nat) : Prop := c < 0x110000 ∧ ¬ (0xD800 ≤ c ∧ c < 0xE000)

/-- The decimal digits `ds` write the number `n`, with no leading zero. -/
inductive Decimal : Bytes → Nat → Prop where
  | digit (d : Nat) (hd : d < 10) : Decimal [0x30 + d] d
  | snoc (ds : Bytes) (n d : Nat) (h : Decimal ds n) (hn : 0 < n) (hd : d < 10) :
      Decimal (ds ++ [0x30 + d]) (n * 10 + d)

/-- A task as `encoding/json` stores it: the title coerced to valid UTF-8. -/
def storedTask (t : Task) : Task := { t with Title := toValidUTF8 t.Title }

/-- The JSON value that the written form of a task is read as. -/
def taskValue (t : Task) : JValue :=
  JValue.obj
    [([0x69, 0x64], JValue.num (formatInt t.ID)),
     ([0x74, 0x69, 0x74, 0x6C, 0x65], JValue.str (toValidUTF8 t.Title)),
     ([0x63, 0x6F, 0x6D, 0x70, 0x6C, 0x65, 0x74, 0x65], JValue.bool t.Complete)]

/-- The bytes of a written task between its opening brace and what follows
its closing brace: three members, each a newline, four blanks, the key between
quotes, a colon, a blank and the value, with commas between. -/
def writtenMembers (t : Task) (rest : Bytes) : Bytes :=
  [0x0A, 0x20, 0x20, 0x20, 0x20, 0x22] ++ [0x69, 0x64] ++ [0x22, 0x3A, 0x20]
    ++ (formatInt t.ID ++ 0x2C ::
    ([0x0A, 0x20, 0x20, 0x20, 0x20, 0x22] ++ [0x74, 0x69, 0x74, 0x6C, 0x65]
      ++ [0x22, 0x3A, 0x20]
    ++ (appendString t.Title ++ 0x2C ::
    ([0x0A, 0x20, 0x20, 0x20, 0x20, 0x22] ++ [0x63, 0x6F, 0x6D, 0x70, 0x6C, 0x65, 0x74, 0x65]
      ++ [0x22, 0x3A, 0x20]
    ++ (formatBool t.Complete ++ 0x0A :: 0x20 :: 0x20 :: 0x7D :: rest)))))

/-- A task as Go holds it after decoding: the identifier is a value of `int`
and the title is valid UTF-8. -/
def WellFormed (t : Task) : Prop := InInt64 t.ID ∧ ValidUTF8 t.Title

instance (t : Task) : Decidable (WellFormed t) := by
  unfold WellFormed; infer_instance

/-- A JSON value that may be stored in a field: a string in it is valid UTF-8. -/
def GoodField : JValue → Prop
  | JValue.str s => ValidUTF8 s
  | _ => True

/-- A JSON value that may be decoded as a task: the values of its members are
good for a field. -/
def GoodElem : JValue → Prop
  | JValue.obj ms => ∀ kv ∈ ms, GoodField kv.2
  | _ => True

/-- A JSON value that may be decoded as a list of tasks. -/
def GoodTop : JValue → Prop
  | JValue.arr vs => ∀ v ∈ vs, GoodElem v
  | _ => True

/-- The world at the first start of the program: no file, no fault of the file
system, nothing written yet. -/
def freshWorld : World := ⟨none, false, none, []⟩

/-- Two tasks, the second with a Cyrillic title, none complete. -/
def twoTasks : List Task := [⟨1, utf8 "Buy milk", false⟩, ⟨2, utf8 "Пить чай", false⟩]

/-- A world whose file holds `twoTasks` as the program writes them. -/
def twoTaskWorld : World := ⟨some (marshalArray twoTasks), false, none, []⟩

/-- Three tasks, the second complete and with a Cyrillic title. -/
def threeTasks : List Task :=
  [⟨1, utf8 "Buy milk", false⟩, ⟨2, utf8 "Пить чай", true⟩, ⟨3, utf8 "Отчёт", false⟩]

/-- A world whose file holds `threeTasks` as the program writes them. -/
def threeTaskWorld : World := ⟨some (marshalArray threeTasks), false, none, []⟩

/-- A scanner takes bytes when what it leaves is shorter than what it got. -/
def Shortens {α : Type} (p : Bytes → Option (α × Bytes)) : Prop :=
  ∀ s v r, p s = some (v, r) → r.length < s.length

/-! ## Facts about UTF-8 -/

set_option maxRecDepth 100000

theorem acceptLo_cases (b : Nat) :
    (b = 0xE0 ∧ acceptLo b = 0xA0) ∨ (b = 0xF0 ∧ acceptLo b = 0x90) ∨
    (b ≠ 0xE0 ∧ b ≠ 0xF0 ∧ acceptLo b = 0x80) := by
  unfold acceptLo
  by_cases h1 : b = 0xE0
  · left; rw [if_pos h1]; exact ⟨h1, rfl⟩
  · by_cases h2 : b = 0xF0
    · right; left; rw [if_neg h1, if_pos h2]; exact ⟨h2, rfl⟩
    · right; right; rw [if_neg h1, if_neg h2]; exact ⟨h1, h2, rfl⟩

theorem acceptHi_cases (b : Nat) :
    (b = 0xED ∧ acceptHi b = 0x9F) ∨ (b = 0xF4 ∧ acceptHi b = 0x8F) ∨
    (b ≠ 0xED ∧ b ≠ 0xF4 ∧ acceptHi b = 0xBF) := by
  unfold acceptHi
  by_cases h1 : b = 0xED
  · left; rw [if_pos h1]; exact ⟨h1, rfl⟩
  · by_cases h2 : b = 0xF4
    · right; left; rw [if_neg h1, if_pos h2]; exact ⟨h2, rfl⟩
    · right; right; rw [if_neg h1, if_neg h2]; exact ⟨h1, h2, rfl⟩

/-- Decoding the encoding of a scalar value gives it back, whatever follows. -/
theorem decodeRune_encodeRune (c : Nat) (hc : ValidRune c) (rest : Bytes) :
    decodeRune (encodeRune c ++ rest) = (c, (encodeRune c).length) := by
  obtain ⟨h1, h2⟩ := hc
  unfold encodeRune
  by_cases a1 : c < 0x80
  · rw [if_pos a1]
    simp only [List.cons_append, List.nil_append, decodeRune, if_pos a1]; rfl
  rw [if_neg a1]
  by_cases a2 : c < 0x800
  · rw [if_pos a2]
    simp only [List.cons_append, List.nil_append, decodeRune]
    rw [if_neg (by omega), if_neg (by omega), if_pos (by omega), if_pos (by omega)]
    simp only [List.length_cons, List.length_nil, Prod.mk.injEq, and_true]
    omega
  rw [if_neg a2, if_neg h2]
  by_cases a3 : c < 0x10000
  · rw [if_pos a3]
    simp only [List.cons_append, List.nil_append, decodeRune]
    rw [if_neg (by omega), if_neg (by omega), if_neg (by omega), if_pos (by omega), if_pos]
    · simp only [List.length_cons, List.length_nil, Prod.mk.injEq, and_true]
      omega
    · rcases acceptLo_cases (0xE0 + c / 4096) with h | h | h <;>
      rcases acceptHi_cases (0xE0 + c / 4096) with g | g | g <;> omega
  rw [if_neg a3, if_pos h1]
  simp only [List.cons_append, List.nil_append, decodeRune]
  rw [if_neg (by omega), if_neg (by omega), if_neg (by omega), if_neg (by omega),
    if_pos (by omega), if_pos]
  · simp only [List.length_cons, List.length_nil, Prod.mk.injEq, and_true]
    omega
  · rcases acceptLo_cases (0xF0 + c / 262144) with h | h | h <;>
    rcases acceptHi_cases (0xF0 + c / 262144) with g | g | g <;> omega

/-- What decoding at a non-ASCII byte gives: either the byte starts no valid
encoding, or the input starts with the encoding of the scalar value found. -/
theorem decodeRune_cases_aux (b : Nat) (r : Bytes) (hb : ¬ b < 0x80) (p : Nat × Nat)
    (hp : decodeRune (b :: r) = p) :
    p = (RuneError, 1) ∨
    (ValidRune p.1 ∧ 0x80 ≤ p.1 ∧ (encodeRune p.1).length = p.2 ∧
      b :: r = encodeRune p.1 ++ r.drop (p.2 - 1)) := by
  unfold decodeRune at hp
  simp only [] at hp
  rw [if_neg hb] at hp
  by_cases c1 : b < 0xC2
  · left; rw [if_pos c1] at hp; exact hp.symm
  rw [if_neg c1] at hp
  by_cases c2 : b < 0xE0
  · rw [if_pos c2] at hp
    match r, hp with
    | [], hp => left; exact hp.symm
    | b1 :: r', hp =>
      simp only at hp
      by_cases hb1 : 0x80 ≤ b1 ∧ b1 ≤ 0xBF
      · right
        rw [if_pos hb1] at hp
        subst hp
        simp only [ValidRune, encodeRune]
        rw [if_neg (by omega), if_pos (by omega)]
        refine ⟨by omega, by omega, rfl, ?_⟩
        simp only [List.cons_append, List.nil_append, List.drop_succ_cons, List.drop_zero,
          List.cons.injEq, and_true]
        omega
      · left; rw [if_neg hb1] at hp; exact hp.symm
  rw [if_neg c2] at hp
  by_cases c3 : b < 0xF0
  · rw [if_pos c3] at hp
    match r, hp with
    | [], hp => left; exact hp.symm
    | [_], hp => left; exact hp.symm
    | b1 :: b2 :: r', hp =>
      simp only at hp
      by_cases hb1 : acceptLo b ≤ b1 ∧ b1 ≤ acceptHi b ∧ 0x80 ≤ b2 ∧ b2 ≤ 0xBF
      · right
        rw [if_pos hb1] at hp
        subst hp
        simp only [ValidRune, encodeRune]
        have hv : 0x800 ≤ (b - 0xE0) * 4096 + (b1 - 0x80) * 64 + (b2 - 0x80) ∧
            (b - 0xE0) * 4096 + (b1 - 0x80) * 64 + (b2 - 0x80) < 0x10000 ∧
            ¬ (0xD800 ≤ (b - 0xE0) * 4096 + (b1 - 0x80) * 64 + (b2 - 0x80) ∧
              (b - 0xE0) * 4096 + (b1 - 0x80) * 64 + (b2 - 0x80) < 0xE000) ∧
            0x80 ≤ b1 ∧ b1 ≤ 0xBF := by
          rcases acceptLo_cases b with h | h | h <;>
          rcases acceptHi_cases b with g | g | g <;> omega
        rw [if_neg (by omega), if_neg (by omega), if_neg hv.2.2.1, if_pos (by omega)]
        refine ⟨⟨by omega, hv.2.2.1⟩, by omega, rfl, ?_⟩
        simp only [List.cons_append, List.nil_append, List.drop_succ_cons, List.drop_zero,
          List.cons.injEq, and_true]
        omega
      · left; rw [if_neg hb1] at hp; exact hp.symm
  rw [if_neg c3] at hp
  by_cases c4 : b < 0xF5
  · rw [if_pos c4] at hp
    match r, hp with
    | [], hp => left; exact hp.symm
    | [_], hp => left; exact hp.symm
    | [_, _], hp => left; exact hp.symm
    | b1 :: b2 :: b3 :: r', hp =>
      simp only at hp
      by_cases hb1 : acceptLo b ≤ b1 ∧ b1 ≤ acceptHi b ∧ 0x80 ≤ b2 ∧ b2 ≤ 0xBF
          ∧ 0x80 ≤ b3 ∧ b3 ≤ 0xBF
      · right
        rw [if_pos hb1] at hp
        subst hp
        simp only [ValidRune, encodeRune]
        have hv : 0x10000 ≤
              (b - 0xF0) * 262144 + (b1 - 0x80) * 4096 + (b2 - 0x80) * 64 + (b3 - 0x80) ∧
            (b - 0xF0) * 262144 + (b1 - 0x80) * 4096 + (b2 - 0x80) * 64 + (b3 - 0x80)
              < 0x110000 ∧
            0x80 ≤ b1 ∧ b1 ≤ 0xBF := by
          rcases acceptLo_cases b with h | h | h <;>
          rcases acceptHi_cases b with g | g | g <;> omega
        rw [if_neg (by omega), if_neg (by omega), if_neg (by omega), if_neg (by omega),
          if_pos (by omega)]
        refine ⟨⟨by omega, by omega⟩, by omega, rfl, ?_⟩
        simp only [List.cons_append, List.nil_append, List.drop_succ_cons, List.drop_zero,
          List.cons.injEq, and_true]
        omega
      · left; rw [if_neg hb1] at hp; exact hp.symm
  · left; rw [if_neg c4] at hp; exact hp.symm

theorem decodeRune_cases (b : Nat) (r : Bytes) (hb : ¬ b < 0x80) :
    decodeRune (b :: r) = (RuneError, 1) ∨
    (ValidRune (decodeRune (b :: r)).1 ∧ 0x80 ≤ (decodeRune (b :: r)).1 ∧
      (encodeRune (decodeRune (b :: r)).1).length = (decodeRune (b :: r)).2 ∧
      b :: r = encodeRune (decodeRune (b :: r)).1 ++ r.drop ((decodeRune (b :: r)).2 - 1)) :=
  decodeRune_cases_aux b r hb _ rfl

theorem validRune_runeError : ValidRune RuneError := by
  unfold ValidRune RuneError; omega

/-- The encoding of a rune from U+0080 on: it has a first byte from 0x80 on and
is two to four bytes long. -/
theorem encodeRune_shape (c : Nat) (hc : 0x80 ≤ c) :
    ∃ b t, encodeRune c = b :: t ∧ 0x80 ≤ b ∧ 1 ≤ t.length := by
  unfold encodeRune
  rw [if_neg (by omega)]
  by_cases a2 : c < 0x800
  · rw [if_pos a2]; exact ⟨_, _, rfl, by omega, by simp⟩
  rw [if_neg a2]
  by_cases a3 : 0xD800 ≤ c ∧ c < 0xE000
  · rw [if_pos a3]; exact ⟨_, _, rfl, by omega, by simp⟩
  rw [if_neg a3]
  by_cases a4 : c < 0x10000
  · rw [if_pos a4]; exact ⟨_, _, rfl, by omega, by simp⟩
  rw [if_neg a4]
  by_cases a5 : c < 0x110000
  · rw [if_pos a5]; exact ⟨_, _, rfl, by omega, by simp⟩
  · rw [if_neg a5]; exact ⟨_, _, rfl, by omega, by simp⟩

/-- Every rune is written as the encoding of a scalar value: of itself, or of
U+FFFD. -/
theorem encodeRune_valid (c : Nat) : ∃ v, ValidRune v ∧ encodeRune c = encodeRune v := by
  by_cases h : ValidRune c
  · exact ⟨c, h, rfl⟩
  · refine ⟨RuneError, validRune_runeError, ?_⟩
    unfold ValidRune at h
    have h3 : encodeRune RuneError = [0xEF, 0xBF, 0xBD] := by decide
    rw [h3]
    unfold encodeRune
    by_cases a : c < 0x110000
    · have hs : 0xD800 ≤ c ∧ c < 0xE000 := by
        by_contra hn; exact h ⟨a, hn⟩
      rw [if_neg (by omega), if_neg (by omega), if_pos hs]
    · rw [if_neg (by omega), if_neg (by omega), if_neg (by omega), if_neg (by omega),
        if_neg a]

/-! ## Strings: what is written is read back, coerced to valid UTF-8 -/

theorem hexVal_hexDigit (n : Nat) (h : n < 16) : hexVal (hexDigit n) = some n := by
  unfold hexDigit hexVal
  by_cases a : n < 10
  · rw [if_pos a, if_pos (by omega)]; congr 1; omega
  · rw [if_neg a, if_neg (by omega), if_pos (by omega)]; congr 1; omega

theorem hex4_u00 (b : Nat) (hb : b < 0x100) (tail : Bytes) :
    hex4 (0x30 :: 0x30 :: hexDigit (b / 16) :: hexDigit (b % 16) :: tail) = some (b, tail) := by
  have h0 : hexVal 0x30 = some 0 := by decide
  simp only [hex4]
  rw [h0, hexVal_hexDigit _ (by omega), hexVal_hexDigit _ (by omega)]
  simp only [Option.some.injEq, Prod.mk.injEq, and_true]
  omega

/-- One ASCII byte, as written, is read back as itself. -/
theorem scanString_escapeByte (b : Nat) (hb : b < 0x80) (F : Nat) (tail : Bytes) :
    scanString (F + 1) (escapeByte b ++ tail) = prepend [b] (scanString F tail) := by
  unfold escapeByte
  by_cases h1 : b = 0x5C ∨ b = 0x22
  · rw [if_pos h1]
    rcases h1 with h | h <;> subst h <;> simp [scanString, unescape]
  rw [if_neg h1]
  by_cases h2 : b = 0x08
  · subst h2; simp [scanString, unescape]
  rw [if_neg h2]
  by_cases h3 : b = 0x0C
  · subst h3; simp [scanString, unescape]
  rw [if_neg h3]
  by_cases h4 : b = 0x0A
  · subst h4; simp [scanString, unescape]
  rw [if_neg h4]
  by_cases h5 : b = 0x0D
  · subst h5; simp [scanString, unescape]
  rw [if_neg h5]
  by_cases h6 : b = 0x09
  · subst h6; simp [scanString, unescape]
  rw [if_neg h6]
  by_cases h7 : b < 0x20 ∨ b = 0x26 ∨ b = 0x3C ∨ b = 0x3E
  · rw [if_pos h7]
    have hs : ¬ (0xD800 ≤ b ∧ b < 0xE000) := by omega
    have he : encodeRune b = [b] := by unfold encodeRune; rw [if_pos hb]
    simp only [List.cons_append, List.nil_append]
    simp only [scanString]
    simp [hex4_u00 b (by omega) tail, hs, he]
  · rw [if_neg h7]
    simp only [List.cons_append, List.nil_append]
    simp only [scanString]
    rw [if_neg (by omega), if_neg (by omega), if_neg (by omega), if_pos hb]

/-- The escape of U+FFFD is read back as the encoding of U+FFFD. -/
theorem scanString_ufffd (F : Nat) (tail : Bytes) :
    scanString (F + 1) ([0x5C, 0x75, 0x66, 0x66, 0x66, 0x64] ++ tail)
      = prepend (encodeRune RuneError) (scanString F tail) := by
  have h : hex4 (0x66 :: 0x66 :: 0x66 :: 0x64 :: tail) = some (RuneError, tail) := by
    simp only [hex4]
    have a : hexVal 0x66 = some 15 := by decide
    have b : hexVal 0x64 = some 13 := by decide
    rw [a, b]; rfl
  have hs : ¬ (0xD800 ≤ RuneError ∧ RuneError < 0xE000) := by decide
  simp only [List.cons_append, List.nil_append]
  simp only [scanString]
  simp [h, hs]

/-- The escapes of U+2028 and U+2029 are read back as their encodings. -/
theorem scanString_u202x (c : Nat) (hc : c = 0x2028 ∨ c = 0x2029) (F : Nat) (tail : Bytes) :
    scanString (F + 1) ([0x5C, 0x75, 0x32, 0x30, 0x32, hexDigit (c % 16)] ++ tail)
      = prepend (encodeRune c) (scanString F tail) := by
  have h : hex4 (0x32 :: 0x30 :: 0x32 :: hexDigit (c % 16) :: tail) = some (c, tail) := by
    simp only [hex4]
    have a : hexVal 0x32 = some 2 := by decide
    have b : hexVal 0x30 = some 0 := by decide
    rw [a, b, hexVal_hexDigit _ (by omega)]
    simp only [Option.some.injEq, Prod.mk.injEq, and_true]
    omega
  have hs : ¬ (0xD800 ≤ c ∧ c < 0xE000) := by omega
  simp only [List.cons_append, List.nil_append]
  simp only [scanString]
  simp [h, hs]

/-- An encoded scalar value from U+0080 on, copied as it is, is read back as it is. -/
theorem scanString_encodeRune (c : Nat) (hv : ValidRune c) (hc : 0x80 ≤ c) (F : Nat)
    (tail : Bytes) :
    scanString (F + 1) (encodeRune c ++ tail) = prepend (encodeRune c) (scanString F tail) := by
  have hd := decodeRune_encodeRune c hv tail
  obtain ⟨b, t, he, hb, _⟩ := encodeRune_shape c hc
  rw [he] at hd ⊢
  simp only [List.cons_append, List.length_cons] at hd ⊢
  simp only [scanString]
  rw [if_neg (by omega), if_neg (by omega), if_neg (by omega), if_neg (by omega), hd]
  simp only [Nat.add_sub_cancel, List.drop_left, he]

/-- The three bytes of U+FFFD, written for a byte that starts no valid
encoding, are read back as they are. -/
theorem scanString_replacement (F : Nat) (tail : Bytes) :
    scanString (F + 1) ([0xEF, 0xBF, 0xBD] ++ tail)
      = prepend (encodeRune RuneError) (scanString F tail) :=
  scanString_encodeRune RuneError (by unfold ValidRune RuneError; omega) (by decide) F tail

/-- Coercion is the same with any bound that is at least the length. -/
theorem toValidUTF8Aux_eq : ∀ (f : Nat) (s : Bytes), s.length ≤ f →
    toValidUTF8Aux f s = toValidUTF8 s := by
  intro f
  induction f using Nat.strong_induction_on with
  | _ f ih =>
    intro s hs
    unfold toValidUTF8
    match f, s, hs with
    | 0, [], _ => rfl
    | _ + 1, [], _ => rfl
    | f + 1, b :: r, hs =>
      simp only [List.length_cons] at hs ⊢
      simp only [toValidUTF8Aux]
      have e1 := ih f (by omega) r (by omega)
      have e2 := ih r.length (by omega) r (by omega)
      have hl : (r.drop ((decodeRune (b :: r)).2 - 1)).length ≤ r.length := by
        rw [List.length_drop]; omega
      have e3 := ih f (by omega) (r.drop ((decodeRune (b :: r)).2 - 1)) (by omega)
      have e4 := ih r.length (by omega) (r.drop ((decodeRune (b :: r)).2 - 1)) hl
      rw [e1, e2, e3, e4]

/-- The string written by `appendString`, scanned, is the string coerced to
valid UTF-8, and the scan stops right after the closing quote. -/
theorem scanString_appendStringAux : ∀ (f : Nat) (s : Bytes) (F : Nat) (rest : Bytes),
    s.length ≤ f → s.length < F →
    scanString F (appendStringAux f s ++ 0x22 :: rest) = some (toValidUTF8Aux f s, rest) := by
  intro f
  induction f with
  | zero =>
    intro s F rest hs hF
    match s, F, hs, hF with
    | [], F + 1, _, _ => simp [appendStringAux, toValidUTF8Aux, scanString]
  | succ f ih =>
    intro s F rest hs hF
    match s, F, hs, hF with
    | [], F + 1, _, _ => simp [appendStringAux, toValidUTF8Aux, scanString]
    | b :: r, F + 1, hs, hF =>
      simp only [List.length_cons] at hs hF
      simp only [appendStringAux, toValidUTF8Aux]
      by_cases hb : b < 0x80
      · rw [if_pos hb, if_pos hb, List.append_assoc, scanString_escapeByte b hb,
          ih r F rest (by omega) (by omega)]
        rfl
      · rw [if_neg hb, if_neg hb]
        have hl : (r.drop ((decodeRune (b :: r)).2 - 1)).length ≤ r.length := by
          rw [List.length_drop]; omega
        rcases decodeRune_cases b r hb with hinv | ⟨hv, hge, hlen, heq⟩
        · rw [if_pos hinv, List.append_assoc, scanString_replacement, hinv]
          simp only [Nat.sub_self, List.drop_zero]
          rw [ih r F rest (by omega) (by omega)]
          rfl
        · obtain ⟨b0, t, he, _, ht⟩ := encodeRune_shape _ hge
          have hn : 2 ≤ (decodeRune (b :: r)).2 := by
            rw [← hlen, he]; simp only [List.length_cons]; omega
          have hne : ¬ decodeRune (b :: r) = (RuneError, 1) := by
            intro h; rw [h] at hn; simp at hn
          rw [if_neg hne]
          by_cases hls : (decodeRune (b :: r)).1 = 0x2028 ∨ (decodeRune (b :: r)).1 = 0x2029
          · rw [if_pos hls, List.append_assoc, scanString_u202x _ hls,
              ih _ F rest (by omega) (by omega)]
            rfl
          · rw [if_neg hls]
            have htake : (b :: r).take (decodeRune (b :: r)).2
                = encodeRune (decodeRune (b :: r)).1 := by
              have h1 : (b :: r).take (decodeRune (b :: r)).2
                  = (encodeRune (decodeRune (b :: r)).1
                      ++ r.drop ((decodeRune (b :: r)).2 - 1)).take
                      (encodeRune (decodeRune (b :: r)).1).length := by
                rw [← heq, hlen]
              rw [h1]
              exact List.take_left _ _
            rw [htake, List.append_assoc, scanString_encodeRune _ hv hge,
              ih _ F rest (by omega) (by omega)]
            rfl

/-- What `appendString` writes is at least as long as the string. -/
theorem length_le_appendStringAux : ∀ (f : Nat) (s : Bytes), s.length ≤ f →
    s.length ≤ (appendStringAux f s).length := by
  intro f
  induction f using Nat.strong_induction_on with
  | _ f ih =>
    intro s hs
    match f, s, hs with
    | 0, [], _ => simp
    | _ + 1, [], _ => simp
    | f + 1, b :: r, hs =>
      simp only [List.length_cons] at hs
      simp only [appendStringAux]
      by_cases hb : b < 0x80
      · rw [if_pos hb]
        have h1 := ih f (by omega) r (by omega)
        have h2 : 1 ≤ (escapeByte b).length := by
          unfold escapeByte
          repeat' split
          all_goals simp
        simp only [List.length_append, List.length_cons]
        omega
      · rw [if_neg hb]
        by_cases hinv : decodeRune (b :: r) = (RuneError, 1)
        · rw [if_pos hinv]
          have h1 := ih f (by omega) r (by omega)
          simp only [List.length_append, List.length_cons, List.length_nil]
          omega
        · rw [if_neg hinv]
          have hl : (r.drop ((decodeRune (b :: r)).2 - 1)).length ≤ r.length := by
            rw [List.length_drop]; omega
          have h1 := ih f (by omega) (r.drop ((decodeRune (b :: r)).2 - 1)) (by omega)
          rw [List.length_drop] at h1
          rcases decodeRune_cases b r hb with h | ⟨hv, hge, hlen, heq⟩
          · exact absurd h hinv
          · obtain ⟨b0, t, he, _, ht⟩ := encodeRune_shape _ hge
            have hn : 2 ≤ (decodeRune (b :: r)).2 := by
              rw [← hlen, he]; simp only [List.length_cons]; omega
            have hlr : (decodeRune (b :: r)).2 ≤ r.length + 1 := by
              have := congrArg List.length heq
              simp only [List.length_cons, List.length_append, List.length_drop] at this
              omega
            split
            · simp only [List.length_append, List.length_cons, List.length_nil]
              have hfour : (decodeRune (b :: r)).2 ≤ 4 := by
                rename_i hls
                rw [← hlen]
                rcases hls with h | h <;> rw [h] <;> decide
              omega
            · simp only [List.length_append, List.length_take, List.length_cons]
              omega

/-- A quoted string read back: the scan that `parseValue` and `parseMembers`
start after the opening quote gives the string coerced to valid UTF-8 and stops
after the closing quote. -/
theorem scanString_quoted (s rest : Bytes) :
    scanString (appendStringAux s.length s ++ 0x22 :: rest).length
        (appendStringAux s.length s ++ 0x22 :: rest) = some (toValidUTF8 s, rest) := by
  have h := length_le_appendStringAux s.length s (Nat.le_refl _)
  exact scanString_appendStringAux s.length s _ rest (Nat.le_refl _)
    (by simp only [List.length_append, List.length_cons]; omega)

/-! ## Numbers: a written `int` is read back -/

theorem formatNatAux_decimal : ∀ (f n : Nat) (acc : Bytes), n < f →
    ∃ ds, formatNatAux f n acc = ds ++ acc ∧ Decimal ds n := by
  intro f
  induction f with
  | zero => intro n acc h; omega
  | succ f ih =>
    intro n acc h
    simp only [formatNatAux]
    by_cases h10 : n < 10
    · rw [if_pos h10]
      exact ⟨[0x30 + n], rfl, Decimal.digit n h10⟩
    · rw [if_neg h10]
      obtain ⟨ds, he, hd⟩ := ih (n / 10) ((0x30 + n % 10) :: acc) (by omega)
      refine ⟨ds ++ [0x30 + n % 10], ?_, ?_⟩
      · rw [he]; simp
      · have h2 := Decimal.snoc ds (n / 10) (n % 10) hd (by omega) (by omega)
        have h3 : n / 10 * 10 + n % 10 = n := by omega
        rw [h3] at h2
        exact h2

theorem formatNat_decimal (n : Nat) : Decimal (formatNat n) n := by
  obtain ⟨ds, he, hd⟩ := formatNatAux_decimal (n + 1) n [] (by omega)
  unfold formatNat
  rw [he, List.append_nil]
  exact hd

theorem Decimal.all_digits {ds : Bytes} {n : Nat} (h : Decimal ds n) :
    ∀ b ∈ ds, 0x30 ≤ b ∧ b ≤ 0x39 := by
  induction h with
  | digit d hd =>
    intro b hb
    simp only [List.mem_singleton] at hb
    omega
  | snoc ds n d _ _ hd ih =>
    intro b hb
    simp only [List.mem_append, List.mem_singleton] at hb
    rcases hb with hb | hb
    · exact ih b hb
    · omega

/-- The digits start with `0` only for the number zero, written `0`. -/
theorem Decimal.head {ds : Bytes} {n : Nat} (h : Decimal ds n) :
    ∃ b t, ds = b :: t ∧ ((b = 0x30 ∧ t = [] ∧ n = 0) ∨ (0x31 ≤ b ∧ b ≤ 0x39 ∧ 0 < n)) := by
  induction h with
  | digit d hd =>
    refine ⟨0x30 + d, [], rfl, ?_⟩
    by_cases h0 : d = 0
    · left; subst h0; exact ⟨rfl, rfl, rfl⟩
    · right; omega
  | snoc ds n d _ hn hd ih =>
    obtain ⟨b, t, he, hc⟩ := ih
    refine ⟨b, t ++ [0x30 + d], by rw [he]; rfl, ?_⟩
    rcases hc with ⟨_, _, h0⟩ | ⟨h1, h2, _⟩
    · omega
    · right; omega

theorem Decimal.value {ds : Bytes} {n : Nat} (h : Decimal ds n) :
    ∀ (tail : Bytes) (v : Nat),
      digitsValue (ds ++ tail) v = digitsValue tail (v * 10 ^ ds.length + n) := by
  induction h with
  | digit d hd =>
    intro tail v
    simp only [List.cons_append, List.nil_append, List.length_cons, List.length_nil]
    simp only [digitsValue]
    rw [if_pos (by omega)]
    congr 1
    omega
  | snoc ds n d _ _ hd ih =>
    intro tail v
    rw [List.append_assoc, ih]
    simp only [List.cons_append, List.nil_append, List.length_append,
      List.length_cons, List.length_nil]
    simp only [digitsValue]
    rw [if_pos (by omega)]
    congr 1
    have : 0x30 + d - 0x30 = d := by omega
    rw [this, Nat.pow_succ]
    ring

theorem digitsValue_formatNat (n : Nat) : digitsValue (formatNat n) 0 = some n := by
  have h := (formatNat_decimal n).value [] 0
  simp only [List.append_nil, Nat.zero_mul, Nat.zero_add] at h
  rw [h]
  rfl

theorem spanDigits_digits : ∀ (ds : Bytes) (c : Nat) (rest : Bytes),
    (∀ b ∈ ds, 0x30 ≤ b ∧ b ≤ 0x39) → ¬ (0x30 ≤ c ∧ c ≤ 0x39) →
    spanDigits (ds ++ c :: rest) = (ds, c :: rest) := by
  intro ds
  induction ds with
  | nil =>
    intro c rest _ hc
    simp only [List.nil_append, spanDigits]
    rw [if_neg hc]
  | cons b t ih =>
    intro c rest hd hc
    simp only [List.cons_append]
    simp only [spanDigits]
    rw [if_pos (hd b (List.mem_cons_self _ _)),
      ih c rest (fun x hx => hd x (List.mem_cons_of_mem _ hx)) hc]

theorem scanIntPart_decimal {ds : Bytes} {n : Nat} (h : Decimal ds n) (rest : Bytes) :
    scanIntPart (ds ++ 0x2C :: rest) = some (ds, 0x2C :: rest) := by
  obtain ⟨b, t, he, hc⟩ := h.head
  have hall := h.all_digits
  subst he
  simp only [List.cons_append]
  simp only [scanIntPart]
  rcases hc with ⟨h0, ht, _⟩ | ⟨h1, h2, _⟩
  · subst h0; subst ht; rfl
  · rw [if_neg (by omega), if_pos ⟨h1, h2⟩,
      spanDigits_digits t 0x2C rest (fun x hx => hall x (List.mem_cons_of_mem _ hx))
        (by omega)]

/-- A written `int` followed by a comma is scanned as one number literal, the
written digits, up to the comma. -/
theorem scanNumber_formatInt (i : Int) (rest : Bytes) :
    scanNumber (formatInt i ++ 0x2C :: rest) = some (formatInt i, 0x2C :: rest) := by
  unfold formatInt
  by_cases hi : i < 0
  · rw [if_pos hi]
    have hd := formatNat_decimal i.natAbs
    simp only [List.cons_append]
    simp only [scanNumber]
    simp only [if_true, scanIntPart_decimal hd rest, scanFrac, scanExp]
    simp
  · rw [if_neg hi]
    have hd := formatNat_decimal i.toNat
    obtain ⟨b, t, he, hc⟩ := hd.head
    have hb : ¬ b = 0x2D := by
      rcases hc with ⟨h0, _, _⟩ | ⟨h1, h2, _⟩ <;> omega
    have hs := scanIntPart_decimal hd rest
    rw [he] at hs ⊢
    simp only [List.cons_append] at hs ⊢
    simp only [scanNumber, if_neg hb, hs, scanFrac, scanExp]
    simp

/-- A written `int` is read back by `strconv.ParseInt`. -/
theorem parseInt64_formatInt (i : Int) (hi : InInt64 i) : parseInt64 (formatInt i) = some i := by
  unfold InInt64 at hi
  unfold formatInt
  by_cases hneg : i < 0
  · rw [if_pos hneg]
    have hd := formatNat_decimal i.natAbs
    obtain ⟨b, t, he, _⟩ := hd.head
    have hv := digitsValue_formatNat i.natAbs
    rw [he] at hv
    rw [he]
    simp only [parseInt64, if_true, hv]
    rw [if_pos (by omega)]
    congr 1
    omega
  · rw [if_neg hneg]
    have hd := formatNat_decimal i.toNat
    obtain ⟨b, t, he, hc⟩ := hd.head
    have hb : ¬ b = 0x2D := by
      rcases hc with ⟨h0, _, _⟩ | ⟨h1, h2, _⟩ <;> omega
    have hv := digitsValue_formatNat i.toNat
    rw [he] at hv
    rw [he]
    simp only [parseInt64, if_neg hb, hv]
    rw [if_pos (by omega)]
    congr 1
    omega

/-- What `strconv.ParseInt` gives is a value of `int`. -/
theorem parseInt64_inInt64 (lit : Bytes) (i : Int) (h : parseInt64 lit = some i) :
    InInt64 i := by
  unfold InInt64
  match lit, h with
  | b :: r, h =>
    simp only [parseInt64] at h
    by_cases hb : b = 0x2D
    · rw [if_pos hb] at h
      match r, h with
      | c :: r1, h =>
        simp only at h
        match hv : digitsValue (c :: r1) 0, h with
        | some n, h =>
          simp only at h
          by_cases hn : n ≤ 2 ^ 63
          · rw [if_pos hn] at h
            simp only [Option.some.injEq] at h
            omega
          · rw [if_neg hn] at h; exact absurd h (by simp)
    · rw [if_neg hb] at h
      match hv : digitsValue (b :: r) 0, h with
      | some n, h =>
        simp only at h
        by_cases hn : n < 2 ^ 63
        · rw [if_pos hn] at h
          simp only [Option.some.injEq] at h
          omega
        · rw [if_neg hn] at h; exact absurd h (by simp)

/-! ## Scanning what `marshalArray` writes -/

theorem formatInt_head (i : Int) :
    ∃ b t, formatInt i = b :: t ∧ (b = 0x2D ∨ (0x30 ≤ b ∧ b ≤ 0x39)) := by
  unfold formatInt
  by_cases hi : i < 0
  · rw [if_pos hi]; exact ⟨_, _, rfl, Or.inl rfl⟩
  · rw [if_neg hi]
    obtain ⟨b, t, he, hc⟩ := (formatNat_decimal i.toNat).head
    refine ⟨b, t, he, Or.inr ?_⟩
    rcases hc with ⟨h0, _, _⟩ | ⟨h1, h2, _⟩ <;> omega

/-- Scanning a value at any depth is `parseValueWith` with the scanner of the
next depth. -/
theorem parseValue_eq (d : Nat) (s : Bytes) :
    parseValue d s = parseValueWith (match d with | 0 => none | d1 + 1 => some (parseValue d1)) s := by
  cases d <;> rfl

theorem parseValue_formatInt (d : Nat) (i : Int) (rest : Bytes) :
    parseValue d (formatInt i ++ 0x2C :: rest)
      = some (JValue.num (formatInt i), 0x2C :: rest) := by
  obtain ⟨b, t, he, hb⟩ := formatInt_head i
  have hs := scanNumber_formatInt i rest
  rw [he] at hs ⊢
  simp only [List.cons_append] at hs ⊢
  rw [parseValue_eq]
  simp only [parseValueWith]
  rw [if_neg (by omega), if_neg (by omega), if_neg (by omega), if_neg (by omega),
    if_neg (by omega), if_neg (by omega), hs]

theorem parseValue_appendString (d : Nat) (s rest : Bytes) :
    parseValue d (appendString s ++ rest) = some (JValue.str (toValidUTF8 s), rest) := by
  unfold appendString
  simp only [List.cons_append, List.append_assoc, List.nil_append]
  rw [parseValue_eq]
  simp only [parseValueWith, if_true, scanString_quoted s rest]

theorem parseValue_formatBool (d : Nat) (b : Bool) (rest : Bytes) :
    parseValue d (formatBool b ++ rest) = some (JValue.bool b, rest) := by
  rw [parseValue_eq]
  cases b <;> simp [formatBool, parseValueWith]

theorem skipSpace_formatInt (i : Int) (rest : Bytes) :
    skipSpace (formatInt i ++ rest) = formatInt i ++ rest := by
  obtain ⟨b, t, he, hb⟩ := formatInt_head i
  rw [he]
  simp only [List.cons_append]
  simp only [skipSpace]
  rw [if_neg (by omega)]

theorem skipSpace_appendString (s rest : Bytes) :
    skipSpace (appendString s ++ rest) = appendString s ++ rest := by
  unfold appendString
  simp only [List.cons_append]
  simp only [skipSpace]
  rw [if_neg (by decide)]

theorem skipSpace_formatBool (b : Bool) (rest : Bytes) :
    skipSpace (formatBool b ++ rest) = formatBool b ++ rest := by
  cases b <;> simp [formatBool, skipSpace]

/-- One member as `marshalArray` writes it (a newline, four blanks, the key
between quotes, a colon, a blank, the value) is scanned as that key with that
value. -/
theorem parseMember_written (pv : Bytes → Option (JValue × Bytes)) (key : Bytes)
    (hk1 : appendStringAux key.length key = key) (hk2 : toValidUTF8 key = key)
    (vb : Bytes) (v : JValue) (r3 : Bytes) (hskip : skipSpace vb = vb)
    (hv : pv vb = some (v, r3)) :
    parseMember pv ([0x0A, 0x20, 0x20, 0x20, 0x20, 0x22] ++ key ++ [0x22, 0x3A, 0x20] ++ vb)
      = some ((key, v), r3) := by
  have hq := scanString_quoted key (0x3A :: 0x20 :: vb)
  rw [hk1, hk2] at hq
  have h1 : skipSpace ([0x0A, 0x20, 0x20, 0x20, 0x20, 0x22] ++ key ++ [0x22, 0x3A, 0x20] ++ vb)
      = 0x22 :: (key ++ 0x22 :: 0x3A :: 0x20 :: vb) := by
    simp [skipSpace]
  have h2 : skipSpace (0x3A :: 0x20 :: vb) = 0x3A :: 0x20 :: vb := by
    simp [skipSpace]
  have h3 : skipSpace (0x20 :: vb) = vb := by
    simp [skipSpace, hskip]
  unfold parseMember
  rw [h1]
  simp only [if_true, hq, h2, h3, hv]

theorem key_id : appendStringAux [0x69, 0x64].length [0x69, 0x64] = [0x69, 0x64]
    ∧ toValidUTF8 [0x69, 0x64] = [0x69, 0x64] := by decide

theorem key_title :
    appendStringAux [0x74, 0x69, 0x74, 0x6C, 0x65].length [0x74, 0x69, 0x74, 0x6C, 0x65]
      = [0x74, 0x69, 0x74, 0x6C, 0x65]
    ∧ toValidUTF8 [0x74, 0x69, 0x74, 0x6C, 0x65] = [0x74, 0x69, 0x74, 0x6C, 0x65] := by decide

theorem key_complete :
    appendStringAux [0x63, 0x6F, 0x6D, 0x70, 0x6C, 0x65, 0x74, 0x65].length
        [0x63, 0x6F, 0x6D, 0x70, 0x6C, 0x65, 0x74, 0x65]
      = [0x63, 0x6F, 0x6D, 0x70, 0x6C, 0x65, 0x74, 0x65]
    ∧ toValidUTF8 [0x63, 0x6F, 0x6D, 0x70, 0x6C, 0x65, 0x74, 0x65]
      = [0x63, 0x6F, 0x6D, 0x70, 0x6C, 0x65, 0x74, 0x65] := by decide

/-- The three members of a written task, scanned after the opening brace. -/
theorem parseMembers_task (d F : Nat) (t : Task) (rest : Bytes) :
    parseMembers (parseValue d) (F + 3) (writtenMembers t rest)
      = some ([([0x69, 0x64], JValue.num (formatInt t.ID)),
          ([0x74, 0x69, 0x74, 0x6C, 0x65], JValue.str (toValidUTF8 t.Title)),
          ([0x63, 0x6F, 0x6D, 0x70, 0x6C, 0x65, 0x74, 0x65], JValue.bool t.Complete)],
          rest) := by
  have s1 : ∀ r : Bytes, skipSpace (0x2C :: r) = 0x2C :: r := by
    intro r; simp [skipSpace]
  have s2 : skipSpace (0x0A :: 0x20 :: 0x20 :: 0x7D :: rest) = 0x7D :: rest := by
    simp [skipSpace]
  have ne : ¬ ((0x2C : Nat) = 0x7D) := by decide
  unfold writtenMembers
  rw [parseMembers, parseMember_written _ _ key_id.1 key_id.2 _ _ _
    (skipSpace_formatInt _ _) (parseValue_formatInt d _ _)]
  simp only [s1, if_neg ne, if_true]
  rw [parseMembers, parseMember_written _ _ key_title.1 key_title.2 _ _ _
    (skipSpace_appendString _ _) (parseValue_appendString d _ _)]
  simp only [s1, if_neg ne, if_true]
  rw [parseMembers, parseMember_written _ _ key_complete.1 key_complete.2 _ _ _
    (skipSpace_formatBool _ _) (parseValue_formatBool d _ _)]
  simp only [s2, if_true]

/-- The written form of a task is an opening brace after two blanks, the three
members, and the closing brace on a line of its own. -/
theorem marshalTask_eq (t : Task) (rest : Bytes) :
    marshalTask t ++ rest = 0x20 :: 0x20 :: 0x7B :: writtenMembers t rest := by
  simp [marshalTask, writtenMembers]

theorem writtenMembers_length (t : Task) (rest : Bytes) :
    ∃ F, (writtenMembers t rest).length = F + 3 ∧ rest.length ≤ F := by
  refine ⟨(writtenMembers t rest).length - 3, ?_, ?_⟩ <;>
  · unfold writtenMembers
    simp only [List.length_append, List.length_cons, List.length_nil]
    omega

theorem peek_writtenMembers (t : Task) (rest : Bytes) :
    peek (writtenMembers t rest) = some 0x22 := by
  simp [peek, writtenMembers, skipSpace]

/-- A written task, scanned as a value where one more level of nesting is
allowed, is the object of its three members. -/
theorem parseValue_writtenTask (d : Nat) (t : Task) (rest : Bytes) :
    parseValue (d + 1) (0x7B :: writtenMembers t rest) = some (taskValue t, rest) := by
  obtain ⟨F, hF, _⟩ := writtenMembers_length t rest
  have ne : ¬ (some (0x22 : Nat) = some 0x7D) := by decide
  rw [parseValue_eq]
  simp only [parseValueWith]
  simp only [peek_writtenMembers, if_neg ne, hF, parseMembers_task]
  simp [taskValue]

/-! ## The round trip of `encoding/json` at `[]Task` -/

theorem marshalRest_length (ts : List Task) : ts.length ≤ (marshalRest ts).length := by
  induction ts with
  | nil => simp
  | cons t ts ih =>
    simp only [marshalRest, List.length_append, List.length_cons, List.length_nil]
    omega

/-- The written tasks, scanned as the elements of an array after the opening
bracket, are the values of the tasks, in order. -/
theorem parseElems_tasks (d : Nat) (rest : Bytes) : ∀ (ts : List Task) (t : Task) (F : Nat),
    ts.length < F →
    parseElems (parseValue (d + 1)) F (0x0A :: (marshalTask t ++ (marshalRest ts ++ rest)))
      = some (taskValue t :: ts.map taskValue, rest) := by
  intro ts
  induction ts with
  | nil =>
    intro t F hF
    obtain ⟨F, rfl⟩ : ∃ k, F = k + 1 := ⟨F - 1, by omega⟩
    have h1 : skipSpace (0x0A :: (marshalTask t ++ (marshalRest [] ++ rest)))
        = 0x7B :: writtenMembers t (marshalRest [] ++ rest) := by
      rw [marshalTask_eq]; simp [skipSpace]
    have h2 : skipSpace (marshalRest [] ++ rest) = 0x5D :: rest := by
      simp [marshalRest, skipSpace]
    rw [parseElems, h1, parseValue_writtenTask]
    simp only [h2, if_true, List.map_nil]
  | cons t1 ts ih =>
    intro t F hF
    simp only [List.length_cons] at hF
    obtain ⟨F, rfl⟩ : ∃ k, F = k + 1 := ⟨F - 1, by omega⟩
    have h1 : skipSpace (0x0A :: (marshalTask t ++ (marshalRest (t1 :: ts) ++ rest)))
        = 0x7B :: writtenMembers t (marshalRest (t1 :: ts) ++ rest) := by
      rw [marshalTask_eq]; simp [skipSpace]
    have h2 : skipSpace (marshalRest (t1 :: ts) ++ rest)
        = 0x2C :: 0x0A :: (marshalTask t1 ++ (marshalRest ts ++ rest)) := by
      simp [marshalRest, skipSpace]
    have ne : ¬ ((0x2C : Nat) = 0x5D) := by decide
    rw [parseElems, h1, parseValue_writtenTask]
    simp only [h2, if_neg ne, if_true, ih t1 F (by omega), List.map_cons]

/-- The written list, scanned as a value where two more levels of nesting are
allowed, is the array of the values of the tasks. -/
theorem parseValue_marshalArray (d : Nat) (ts : List Task) :
    parseValue (d + 2) (marshalArray ts) = some (JValue.arr (ts.map taskValue), []) := by
  rw [parseValue_eq]
  match ts with
  | [] => simp [marshalArray, parseValueWith, peek, skipSpace]
  | t :: ts =>
    have hp : peek (0x0A :: (marshalTask t ++ (marshalRest ts ++ [])))
        = some 0x7B := by
      rw [marshalTask_eq]; simp [peek, skipSpace]
    have ne : ¬ (some (0x7B : Nat) = some 0x5D) := by decide
    have hl : ts.length < (0x0A :: (marshalTask t ++ (marshalRest ts ++ []))).length := by
      have := marshalRest_length ts
      simp only [List.length_cons, List.length_append, List.length_nil]
      omega
    have he : marshalArray (t :: ts) = 0x5B :: 0x0A :: (marshalTask t ++ (marshalRest ts ++ [])) := by
      simp [marshalArray]
    rw [he]
    simp only [parseValueWith]
    simp only [hp, if_neg ne, parseElems_tasks d [] ts t _ hl]
    simp

theorem parseJSON_marshalArray (ts : List Task) :
    parseJSON (marshalArray ts) = some (JValue.arr (ts.map taskValue)) := by
  have hs : skipSpace (marshalArray ts) = marshalArray ts := by
    cases ts <;> simp [marshalArray, skipSpace]
  unfold parseJSON
  rw [hs, show maxNestingDepth = 9998 + 2 from rfl, parseValue_marshalArray]
  simp [skipSpace]

/-- The value of a written task decodes to the task, its title coerced. -/
theorem decodeTask_taskValue (t : Task) (h : InInt64 t.ID) :
    decodeTask (taskValue t) = .ok (storedTask t) := by
  have k1 : foldName [0x69, 0x64] = [0x49, 0x44] := by decide
  have k2 : foldName [0x74, 0x69, 0x74, 0x6C, 0x65] = [0x54, 0x49, 0x54, 0x4C, 0x45] := by
    decide
  have k3 : foldName [0x63, 0x6F, 0x6D, 0x70, 0x6C, 0x65, 0x74, 0x65]
      = [0x43, 0x4F, 0x4D, 0x50, 0x4C, 0x45, 0x54, 0x45] := by decide
  simp [decodeTask, taskValue, setFields, setField, k1, k2, k3, storeID, storeTitle,
    storeComplete, parseInt64_formatInt _ h, storedTask]

theorem decodeElems_taskValues : ∀ (ts : List Task), (∀ t ∈ ts, InInt64 t.ID) →
    decodeElems (ts.map taskValue) = .ok (ts.map storedTask) := by
  intro ts
  induction ts with
  | nil => intro _; rfl
  | cons t ts ih =>
    intro h
    simp only [List.map_cons, decodeElems]
    rw [decodeTask_taskValue t (h t (List.mem_cons_self _ _)),
      ih (fun x hx => h x (List.mem_cons_of_mem _ hx))]

/-- What `json.MarshalIndent` writes for a list of tasks, `json.Unmarshal`
reads back as the same tasks with every title coerced to valid UTF-8. -/
theorem unmarshal_marshalArray (ts : List Task) (h : ∀ t ∈ ts, InInt64 t.ID) :
    unmarshal (marshalArray ts) = .ok (ts.map storedTask) := by
  unfold unmarshal
  rw [parseJSON_marshalArray]
  exact decodeElems_taskValues ts h

/-- The text `null`, which Go writes for a nil slice, is read back as no task,
with or without white space around it. -/
theorem unmarshal_null :
    unmarshal [0x6E, 0x75, 0x6C, 0x6C] = .ok [] ∧
    unmarshal [0x20, 0x6E, 0x75, 0x6C, 0x6C, 0x0A] = .ok [] := by
  decide

/-! ## What is decoded is well formed -/

theorem toValidUTF8_nil : toValidUTF8 [] = [] := rfl

theorem toValidUTF8_cons_ascii (b : Nat) (hb : b < 0x80) (s : Bytes) :
    toValidUTF8 (b :: s) = b :: toValidUTF8 s := by
  unfold toValidUTF8
  simp only [List.length_cons, toValidUTF8Aux]
  rw [if_pos hb]

theorem toValidUTF8_encodeRune_append (c : Nat) (s : Bytes) :
    toValidUTF8 (encodeRune c ++ s) = encodeRune c ++ toValidUTF8 s := by
  obtain ⟨v, hv, he⟩ := encodeRune_valid c
  rw [he]
  by_cases hlt : v < 0x80
  · have h1 : encodeRune v = [v] := by unfold encodeRune; rw [if_pos hlt]
    rw [h1]
    exact toValidUTF8_cons_ascii v hlt s
  · have hd := decodeRune_encodeRune v hv s
    obtain ⟨b, t, hbt, hb, _⟩ := encodeRune_shape v (by omega)
    rw [hbt] at hd ⊢
    simp only [List.cons_append, List.length_cons] at hd ⊢
    unfold toValidUTF8
    simp only [List.length_cons, toValidUTF8Aux]
    rw [if_neg (by omega), hd]
    simp only [Nat.add_sub_cancel, List.drop_left, hbt, List.cons_append]
    rw [toValidUTF8Aux_eq _ s (by simp)]
    rfl

theorem validUTF8_nil : ValidUTF8 [] := rfl

theorem validUTF8_cons_ascii (b : Nat) (hb : b < 0x80) (s : Bytes) (h : ValidUTF8 s) :
    ValidUTF8 (b :: s) := by
  unfold ValidUTF8 at h ⊢
  rw [toValidUTF8_cons_ascii b hb, h]

theorem validUTF8_encodeRune_append (c : Nat) (s : Bytes) (h : ValidUTF8 s) :
    ValidUTF8 (encodeRune c ++ s) := by
  unfold ValidUTF8 at h ⊢
  rw [toValidUTF8_encodeRune_append, h]

/-- A text given as Unicode scalar values is valid UTF-8 once encoded. -/
theorem validUTF8_utf8 (s : String) : ValidUTF8 (utf8 s) := by
  unfold utf8
  induction s.data with
  | nil => exact validUTF8_nil
  | cons c cs ih =>
    simp only [List.flatMap_cons]
    exact validUTF8_encodeRune_append _ _ ih

theorem unescape_lt (e x : Nat) (h : unescape e = some x) : x < 0x80 := by
  unfold unescape at h
  repeat' split at h
  all_goals simp only [Option.some.injEq, reduceCtorEq] at h
  all_goals omega

theorem prepend_eq_some (xs : Bytes) (o : Option (Bytes × Bytes)) (out rest : Bytes)
    (h : prepend xs o = some (out, rest)) :
    ∃ out1, o = some (out1, rest) ∧ out = xs ++ out1 := by
  match o, h with
  | some (s, r), h =>
    simp only [prepend, Option.some.injEq, Prod.mk.injEq] at h
    exact ⟨s, by rw [h.2], h.1.symm⟩

/-- Whatever is scanned, an unquoted string is valid UTF-8. -/
theorem scanString_valid : ∀ (F : Nat) (s out rest : Bytes),
    scanString F s = some (out, rest) → ValidUTF8 out := by
  intro F
  induction F with
  | zero => intro s out rest h; simp [scanString] at h
  | succ F ih =>
    intro s out rest h
    match s, h with
    | [], h => simp [scanString] at h
    | b :: r, h =>
      simp only [scanString] at h
      repeat' split at h
      all_goals first
        | contradiction
        | (simp only [Option.some.injEq, Prod.mk.injEq] at h
           rw [← h.1]; exact validUTF8_nil)
        | (obtain ⟨o1, h1, h2⟩ := prepend_eq_some _ _ _ _ h
           rw [h2]
           exact validUTF8_encodeRune_append _ _ (ih _ _ _ h1))
        | (obtain ⟨o1, h1, h2⟩ := prepend_eq_some _ _ _ _ h
           rw [h2]
           exact validUTF8_cons_ascii _ (unescape_lt _ _ (by assumption)) _ (ih _ _ _ h1))
        | (obtain ⟨o1, h1, h2⟩ := prepend_eq_some _ _ _ _ h
           rw [h2]
           exact validUTF8_cons_ascii _ (by assumption) _ (ih _ _ _ h1))


theorem parseValueWith_goodField (inner : Option (Bytes → Option (JValue × Bytes)))
    (s : Bytes) (v : JValue) (r : Bytes) (h : parseValueWith inner s = some (v, r)) :
    GoodField v := by
  unfold parseValueWith at h
  repeat' split at h
  all_goals first
    | contradiction
    | (simp only [Option.some.injEq, Prod.mk.injEq] at h
       rw [← h.1]
       first
         | exact trivial
         | exact scanString_valid _ _ _ _ (by assumption))

theorem parseValue_goodField (d : Nat) (s : Bytes) (v : JValue) (r : Bytes)
    (h : parseValue d s = some (v, r)) : GoodField v := by
  rw [parseValue_eq] at h
  exact parseValueWith_goodField _ s v r h

theorem parseMember_good (pv : Bytes → Option (JValue × Bytes)) (P : JValue → Prop)
    (hpv : ∀ s v r, pv s = some (v, r) → P v) (s : Bytes) (m : Bytes × JValue) (r : Bytes)
    (h : parseMember pv s = some (m, r)) : P m.2 := by
  unfold parseMember at h
  repeat' split at h
  all_goals first
    | contradiction
    | (simp only [Option.some.injEq, Prod.mk.injEq] at h
       rw [← h.1]
       exact hpv _ _ _ (by assumption))

theorem parseMembers_good (pv : Bytes → Option (JValue × Bytes)) (P : JValue → Prop)
    (hpv : ∀ s v r, pv s = some (v, r) → P v) : ∀ (F : Nat) (s : Bytes)
    (ms : List (Bytes × JValue)) (r : Bytes),
    parseMembers pv F s = some (ms, r) → ∀ kv ∈ ms, P kv.2 := by
  intro F
  induction F with
  | zero => intro s ms r h; simp [parseMembers] at h
  | succ F ih =>
    intro s ms r h
    simp only [parseMembers] at h
    repeat' split at h
    all_goals first
      | contradiction
      | (simp only [Option.some.injEq, Prod.mk.injEq] at h
         rw [← h.1]
         intro kv hkv
         simp only [List.mem_cons, List.mem_singleton, List.not_mem_nil, or_false] at hkv
         first
           | (rw [hkv]; exact parseMember_good pv P hpv _ _ _ (by assumption))
           | (rcases hkv with hkv | hkv
              · rw [hkv]; exact parseMember_good pv P hpv _ _ _ (by assumption)
              · exact ih _ _ _ (by assumption) kv hkv))

theorem parseElems_good (pv : Bytes → Option (JValue × Bytes)) (P : JValue → Prop)
    (hpv : ∀ s v r, pv s = some (v, r) → P v) : ∀ (F : Nat) (s : Bytes)
    (vs : List JValue) (r : Bytes),
    parseElems pv F s = some (vs, r) → ∀ v ∈ vs, P v := by
  intro F
  induction F with
  | zero => intro s vs r h; simp [parseElems] at h
  | succ F ih =>
    intro s vs r h
    simp only [parseElems] at h
    repeat' split at h
    all_goals first
      | contradiction
      | (simp only [Option.some.injEq, Prod.mk.injEq] at h
         rw [← h.1]
         intro x hx
         simp only [List.mem_cons, List.mem_singleton, List.not_mem_nil, or_false] at hx
         first
           | (rw [hx]; exact hpv _ _ _ (by assumption))
           | (rcases hx with hx | hx
              · rw [hx]; exact hpv _ _ _ (by assumption)
              · exact ih _ _ _ (by assumption) x hx))

theorem parseValue_goodElem (d : Nat) (s : Bytes) (v : JValue) (r : Bytes)
    (h : parseValue d s = some (v, r)) : GoodElem v := by
  rw [parseValue_eq] at h
  unfold parseValueWith at h
  repeat' split at h
  all_goals first
    | contradiction
    | (simp only [Option.some.injEq, Prod.mk.injEq] at h
       rw [← h.1]
       first
         | exact trivial
         | (intro kv hkv; exact absurd hkv (List.not_mem_nil _))
         | (rename_i hinner _ _ _ _ hms
            cases d with
            | zero => exact absurd hinner (by simp)
            | succ d1 =>
              simp only [Option.some.injEq] at hinner
              subst hinner
              exact parseMembers_good _ GoodField (parseValue_goodField d1) _ _ _ _ hms))

theorem parseValue_goodTop (d : Nat) (s : Bytes) (v : JValue) (r : Bytes)
    (h : parseValue d s = some (v, r)) : GoodTop v := by
  rw [parseValue_eq] at h
  unfold parseValueWith at h
  repeat' split at h
  all_goals first
    | contradiction
    | (simp only [Option.some.injEq, Prod.mk.injEq] at h
       rw [← h.1]
       first
         | exact trivial
         | (intro kv hkv; exact absurd hkv (List.not_mem_nil _))
         | (rename_i hinner _ _ _ _ hvs
            cases d with
            | zero => exact absurd hinner (by simp)
            | succ d1 =>
              simp only [Option.some.injEq] at hinner
              subst hinner
              exact parseElems_good _ GoodElem (parseValue_goodElem d1) _ _ _ _ hvs))


theorem wellFormed_zero : WellFormed ⟨0, [], false⟩ := by decide

theorem storeID_wf (t t1 : Task) (v : JValue) (h : storeID t v = .ok t1)
    (ht : WellFormed t) : WellFormed t1 := by
  unfold storeID at h
  repeat' split at h
  all_goals first
    | contradiction
    | (simp only [Except.ok.injEq] at h
       rw [← h]
       first
         | exact ht
         | exact ⟨parseInt64_inInt64 _ _ (by assumption), ht.2⟩)

theorem storeTitle_wf (t t1 : Task) (v : JValue) (h : storeTitle t v = .ok t1)
    (ht : WellFormed t) (hv : GoodField v) : WellFormed t1 := by
  unfold storeTitle at h
  repeat' split at h
  all_goals first
    | contradiction
    | (simp only [Except.ok.injEq] at h
       rw [← h]
       first
         | exact ht
         | exact ⟨ht.1, hv⟩)

theorem storeComplete_wf (t t1 : Task) (v : JValue) (h : storeComplete t v = .ok t1)
    (ht : WellFormed t) : WellFormed t1 := by
  unfold storeComplete at h
  repeat' split at h
  all_goals first
    | contradiction
    | (simp only [Except.ok.injEq] at h
       rw [← h]
       exact ht)

theorem setField_wf (t t1 : Task) (key : Bytes) (v : JValue) (h : setField t key v = .ok t1)
    (ht : WellFormed t) (hv : GoodField v) : WellFormed t1 := by
  unfold setField at h
  split at h
  · exact storeID_wf t t1 v h ht
  split at h
  · exact storeTitle_wf t t1 v h ht hv
  split at h
  · exact storeComplete_wf t t1 v h ht
  · simp only [Except.ok.injEq] at h
    rw [← h]; exact ht

theorem setFields_wf : ∀ (ms : List (Bytes × JValue)) (t t1 : Task),
    setFields t ms = .ok t1 → WellFormed t → (∀ kv ∈ ms, GoodField kv.2) → WellFormed t1 := by
  intro ms
  induction ms with
  | nil =>
    intro t t1 h ht _
    simp only [setFields, Except.ok.injEq] at h
    rw [← h]; exact ht
  | cons m ms ih =>
    intro t t1 h ht hg
    obtain ⟨k, v⟩ := m
    simp only [setFields] at h
    split at h
    · rename_i t2 h2
      exact ih t2 t1 h (setField_wf t t2 k v h2 ht (hg (k, v) (List.mem_cons_self _ _)))
        (fun kv hkv => hg kv (List.mem_cons_of_mem _ hkv))
    · contradiction

theorem decodeTask_wf (v : JValue) (t : Task) (h : decodeTask v = .ok t) (hv : GoodElem v) :
    WellFormed t := by
  unfold decodeTask at h
  split at h
  · exact setFields_wf _ _ _ h wellFormed_zero hv
  · simp only [Except.ok.injEq] at h
    rw [← h]; exact wellFormed_zero
  · contradiction

theorem decodeElems_wf : ∀ (vs : List JValue) (ts : List Task),
    decodeElems vs = .ok ts → (∀ v ∈ vs, GoodElem v) → ∀ t ∈ ts, WellFormed t := by
  intro vs
  induction vs with
  | nil =>
    intro ts h _ t ht
    simp only [decodeElems, Except.ok.injEq] at h
    rw [← h] at ht
    exact absurd ht (List.not_mem_nil _)
  | cons v vs ih =>
    intro ts h hg t ht
    simp only [decodeElems] at h
    split at h
    · contradiction
    · rename_i t0 h0
      split at h
      · contradiction
      · rename_i ts0 hs0
        simp only [Except.ok.injEq] at h
        rw [← h] at ht
        rcases List.mem_cons.mp ht with e | e
        · rw [e]; exact decodeTask_wf v t0 h0 (hg v (List.mem_cons_self _ _))
        · exact ih ts0 hs0 (fun x hx => hg x (List.mem_cons_of_mem _ hx)) t e

/-- Every task `json.Unmarshal` gives has an identifier in the range of `int`
and a title that is valid UTF-8. -/
theorem unmarshal_wf (data : Bytes) (ts : List Task) (h : unmarshal data = .ok ts) :
    ∀ t ∈ ts, WellFormed t := by
  unfold unmarshal at h
  split at h
  · contradiction
  · rename_i v hv
    have hg : GoodTop v := by
      unfold parseJSON at hv
      split at hv
      · rename_i v1 r1 hp
        split at hv
        · simp only [Option.some.injEq] at hv
          rw [← hv]; exact parseValue_goodTop _ _ _ _ hp
        · contradiction
      · contradiction
    unfold decodeTasks at h
    split at h
    · exact decodeElems_wf _ _ h hg
    · simp only [Except.ok.injEq] at h
      rw [← h]
      intro t ht; exact absurd ht (List.not_mem_nil _)
    · contradiction

/-- Storing a list of well-formed tasks changes nothing. -/
theorem map_storedTask_wf (ts : List Task) (h : ∀ t ∈ ts, WellFormed t) :
    ts.map storedTask = ts := by
  induction ts with
  | nil => rfl
  | cons t ts ih =>
    have ht := h t (List.mem_cons_self _ _)
    have e : storedTask t = t := by
      unfold storedTask
      have := ht.2
      unfold ValidUTF8 at this
      rw [this]
    rw [List.map_cons, e, ih (fun x hx => h x (List.mem_cons_of_mem _ hx))]

/-- The round trip of `encoding/json` on well-formed tasks. -/
theorem unmarshal_marshalArray_wf (ts : List Task) (h : ∀ t ∈ ts, WellFormed t) :
    unmarshal (marshalArray ts) = .ok ts := by
  rw [unmarshal_marshalArray ts (fun t ht => (h t ht).1), map_storedTask_wf ts h]

/-! ## The bounds on the number of steps are never reached

The scanners count their steps down from the length of the input.  Every step
takes at least one byte, so a larger bound gives the same result: the bound
only makes the recursion structural. -/

theorem skipSpace_length_le : ∀ s : Bytes, (skipSpace s).length ≤ s.length := by
  intro s
  induction s with
  | nil => simp [skipSpace]
  | cons b r ih =>
    simp only [skipSpace]
    split
    · simp only [List.length_cons]; omega
    · exact Nat.le_refl _

theorem hex4_length (s r : Bytes) (v : Nat) (h : hex4 s = some (v, r)) :
    r.length + 4 = s.length := by
  unfold hex4 at h
  split at h
  · split at h
    · simp only [Option.some.injEq, Prod.mk.injEq] at h
      rw [← h.2]; simp
    · contradiction
  · contradiction

theorem getu4_length (s r : Bytes) (v : Nat) (h : getu4 s = some (v, r)) :
    r.length + 6 = s.length := by
  unfold getu4 at h
  split at h
  · split at h
    · have := hex4_length _ _ _ h
      simp only [List.length_cons]; omega
    · contradiction
  · contradiction

theorem prepend_congr (xs : Bytes) (a b : Option (Bytes × Bytes)) (h : a = b) :
    prepend xs a = prepend xs b := by rw [h]

/-- Scanning a string with any bound that is at least the length of the input
gives what the bound equal to the length gives. -/
theorem scanString_fuel : ∀ (F G : Nat) (s : Bytes), s.length ≤ F → s.length ≤ G →
    scanString F s = scanString G s := by
  intro F
  induction F with
  | zero =>
    intro G s hF _
    have : s = [] := List.length_eq_zero.mp (by omega)
    subst this
    cases G <;> rfl
  | succ F ih =>
    intro G s hF hG
    match s, G, hF, hG with
    | [], 0, _, _ => rfl
    | [], _ + 1, _, _ => rfl
    | b :: r, G + 1, hF, hG =>
      simp only [List.length_cons] at hF hG
      simp only [scanString]
      split
      · rfl
      split
      · split
        · rfl
        · rename_i e r1
          simp only [List.length_cons] at hF hG
          split
          · split
            · rfl
            · rename_i rr r2 h4
              have l2 := hex4_length _ _ _ h4
              split
              · split
                · rename_i rr1 r3 hu
                  have l3 := getu4_length _ _ _ hu
                  split
                  · exact prepend_congr _ _ _ (ih G r3 (by omega) (by omega))
                  · exact prepend_congr _ _ _ (ih G r2 (by omega) (by omega))
                · exact prepend_congr _ _ _ (ih G r2 (by omega) (by omega))
              · exact prepend_congr _ _ _ (ih G r2 (by omega) (by omega))
          · split
            · exact prepend_congr _ _ _ (ih G r1 (by omega) (by omega))
            · rfl
      split
      · rfl
      split
      · exact prepend_congr _ _ _ (ih G r (by omega) (by omega))
      · have hl : (r.drop ((decodeRune (b :: r)).2 - 1)).length ≤ r.length := by
          rw [List.length_drop]; omega
        exact prepend_congr _ _ _ (ih G _ (by omega) (by omega))

/-- A scanned string ends before the end of the input: the closing quote at
least is taken. -/
theorem scanString_shorter : ∀ (F : Nat) (s out r : Bytes),
    scanString F s = some (out, r) → r.length < s.length := by
  intro F
  induction F with
  | zero => intro s out r h; simp [scanString] at h
  | succ F ih =>
    intro s out r h
    match s, h with
    | [], h => simp [scanString] at h
    | b :: r0, h =>
      simp only [scanString] at h
      simp only [List.length_cons]
      repeat' split at h
      all_goals first
        | contradiction
        | (simp only [Option.some.injEq, Prod.mk.injEq] at h
           rw [← h.2]; omega)
        | (obtain ⟨o1, h1, _⟩ := prepend_eq_some _ _ _ _ h
           have l1 := ih _ _ _ h1
           first
             | (have l2 := hex4_length _ _ _ (by assumption)
                have l3 := getu4_length _ _ _ (by assumption)
                simp only [List.length_cons] at l2 l3 ⊢
                omega)
             | (have l2 := hex4_length _ _ _ (by assumption)
                simp only [List.length_cons] at l2 ⊢
                omega)
             | (simp only [List.length_cons, List.length_drop] at l1 ⊢
                omega))

/-- Writing a string with any bound that is at least its length gives what the
bound equal to the length gives. -/
theorem appendStringAux_fuel : ∀ (f g : Nat) (s : Bytes), s.length ≤ f → s.length ≤ g →
    appendStringAux f s = appendStringAux g s := by
  intro f
  induction f with
  | zero =>
    intro g s hf _
    have : s = [] := List.length_eq_zero.mp (by omega)
    subst this
    cases g <;> rfl
  | succ f ih =>
    intro g s hf hg
    match s, g, hf, hg with
    | [], 0, _, _ => rfl
    | [], _ + 1, _, _ => rfl
    | b :: r, g + 1, hf, hg =>
      simp only [List.length_cons] at hf hg
      have hl : (r.drop ((decodeRune (b :: r)).2 - 1)).length ≤ r.length := by
        rw [List.length_drop]; omega
      simp only [appendStringAux]
      rw [ih g r (by omega) (by omega), ih g (r.drop ((decodeRune (b :: r)).2 - 1))
        (by omega) (by omega)]


theorem spanDigits_length_le : ∀ s : Bytes, (spanDigits s).2.length ≤ s.length := by
  intro s
  induction s with
  | nil => simp [spanDigits]
  | cons b r ih =>
    simp only [spanDigits]
    split
    · simp only [List.length_cons]; omega
    · exact Nat.le_refl _

theorem scanIntPart_shorter (s i r : Bytes) (h : scanIntPart s = some (i, r)) :
    r.length < s.length := by
  unfold scanIntPart at h
  split at h
  · contradiction
  · rename_i b r0
    have := spanDigits_length_le r0
    repeat' split at h
    all_goals first
      | contradiction
      | (simp only [Option.some.injEq, Prod.mk.injEq] at h
         rw [← h.2]; simp only [List.length_cons]; omega)

theorem scanFrac_length_le (s fr r : Bytes) (h : scanFrac s = some (fr, r)) :
    r.length ≤ s.length := by
  unfold scanFrac at h
  split at h
  · simp only [Option.some.injEq, Prod.mk.injEq] at h
    obtain ⟨-, rfl⟩ := h; exact Nat.le_refl _
  · rename_i b r0
    have := spanDigits_length_le r0
    repeat' split at h
    all_goals first
      | contradiction
      | (simp only [Option.some.injEq, Prod.mk.injEq] at h
         obtain ⟨-, rfl⟩ := h
         first
           | exact Nat.le_refl _
           | (rename_i hs
              rw [hs] at this
              simp only [List.length_cons] at this ⊢
              omega))

theorem scanSign_length_le (s : Bytes) : (scanSign s).2.length ≤ s.length := by
  unfold scanSign
  split
  · exact Nat.le_refl _
  · split
    · simp only [List.length_cons]; omega
    · exact Nat.le_refl _

theorem scanExp_length_le (s e r : Bytes) (h : scanExp s = some (e, r)) :
    r.length ≤ s.length := by
  unfold scanExp at h
  split at h
  · simp only [Option.some.injEq, Prod.mk.injEq] at h
    obtain ⟨-, rfl⟩ := h; exact Nat.le_refl _
  · rename_i b r0
    have h1 := spanDigits_length_le (scanSign r0).2
    have h2 := scanSign_length_le r0
    repeat' split at h
    all_goals first
      | contradiction
      | (simp only [Option.some.injEq, Prod.mk.injEq] at h
         obtain ⟨-, rfl⟩ := h
         first
           | exact Nat.le_refl _
           | (rename_i hs
              rw [hs] at h1
              simp only [List.length_cons] at h1 ⊢
              omega))

theorem scanNumber_shorter (s lit r : Bytes) (h : scanNumber s = some (lit, r)) :
    r.length < s.length := by
  unfold scanNumber at h
  split at h
  · contradiction
  · rename_i b r0
    split at h
    · contradiction
    · rename_i i s2 hi
      have l1 := scanIntPart_shorter _ _ _ hi
      split at h
      · contradiction
      · rename_i fr s3 hf
        have l2 := scanFrac_length_le _ _ _ hf
        split at h
        · contradiction
        · rename_i e s4 he
          have l3 := scanExp_length_le _ _ _ he
          simp only [Option.some.injEq, Prod.mk.injEq] at h
          rw [← h.2]
          simp only [List.length_cons]
          split at l1
          · omega
          · simp only [List.length_cons] at l1; omega

theorem parseMember_shorter (pv : Bytes → Option (JValue × Bytes)) (hpv : Shortens pv)
    (s : Bytes) (m : Bytes × JValue) (r : Bytes) (h : parseMember pv s = some (m, r)) :
    r.length < s.length := by
  unfold parseMember at h
  have l0 := skipSpace_length_le s
  split at h
  · contradiction
  · rename_i q r0 hs0
    rw [hs0] at l0
    split at h
    · split at h
      · contradiction
      · rename_i key r1 hk
        have l1 := scanString_shorter _ _ _ _ hk
        have l2 := skipSpace_length_le r1
        split at h
        · contradiction
        · rename_i c r2 hs2
          rw [hs2] at l2
          have l3 := skipSpace_length_le r2
          split at h
          · split at h
            · contradiction
            · rename_i v r3 hv
              have l4 := hpv _ _ _ hv
              simp only [Option.some.injEq, Prod.mk.injEq] at h
              rw [← h.2]
              simp only [List.length_cons] at l0 l2
              omega
          · contradiction
    · contradiction

theorem parseMembers_fuel (pv : Bytes → Option (JValue × Bytes)) (hpv : Shortens pv) :
    ∀ (F G : Nat) (s : Bytes), s.length ≤ F → s.length ≤ G →
      parseMembers pv F s = parseMembers pv G s := by
  intro F
  induction F with
  | zero =>
    intro G s hF _
    have hs : s = [] := List.length_eq_zero.mp (by omega)
    subst hs
    cases G with
    | zero => rfl
    | succ G => simp [parseMembers, parseMember, skipSpace]
  | succ F ih =>
    intro G s hF hG
    cases G with
    | zero =>
      have hs : s = [] := List.length_eq_zero.mp (by omega)
      subst hs
      simp [parseMembers, parseMember, skipSpace]
    | succ G =>
      simp only [parseMembers]
      split
      · rfl
      · rename_i m r3 hm
        have l1 := parseMember_shorter pv hpv _ _ _ hm
        have l2 := skipSpace_length_le r3
        split
        · rfl
        · rename_i e r4 hs4
          rw [hs4] at l2
          simp only [List.length_cons] at l2
          rw [ih G r4 (by omega) (by omega)]

theorem parseMembers_shorter (pv : Bytes → Option (JValue × Bytes)) (hpv : Shortens pv) :
    ∀ (F : Nat), Shortens (parseMembers pv F) := by
  intro F
  induction F with
  | zero => intro s v r h; simp [parseMembers] at h
  | succ F ih =>
    intro s v r h
    simp only [parseMembers] at h
    split at h
    · contradiction
    · rename_i m r3 hm
      have l1 := parseMember_shorter pv hpv _ _ _ hm
      have l2 := skipSpace_length_le r3
      split at h
      · contradiction
      · rename_i e r4 hs4
        rw [hs4] at l2
        simp only [List.length_cons] at l2
        repeat' split at h
        all_goals first
          | contradiction
          | (simp only [Option.some.injEq, Prod.mk.injEq] at h
             rw [← h.2]
             first
               | omega
               | (have l3 := ih _ _ _ (by assumption); omega))

theorem parseElems_nil (pv : Bytes → Option (JValue × Bytes)) (hpv : Shortens pv) (F : Nat) :
    parseElems pv F [] = none := by
  cases F with
  | zero => rfl
  | succ F =>
    simp only [parseElems, skipSpace]
    split
    · rfl
    · rename_i v r hv
      have := hpv _ _ _ hv
      simp at this

theorem parseElems_fuel (pv : Bytes → Option (JValue × Bytes)) (hpv : Shortens pv) :
    ∀ (F G : Nat) (s : Bytes), s.length ≤ F → s.length ≤ G →
      parseElems pv F s = parseElems pv G s := by
  intro F
  induction F with
  | zero =>
    intro G s hF _
    have hs : s = [] := List.length_eq_zero.mp (by omega)
    subst hs
    rw [parseElems_nil pv hpv, parseElems_nil pv hpv]
  | succ F ih =>
    intro G s hF hG
    cases G with
    | zero =>
      have hs : s = [] := List.length_eq_zero.mp (by omega)
      subst hs
      rw [parseElems_nil pv hpv, parseElems_nil pv hpv]
    | succ G =>
      simp only [parseElems]
      have l0 := skipSpace_length_le s
      split
      · rfl
      · rename_i v r hv
        have l1 := hpv _ _ _ hv
        have l2 := skipSpace_length_le r
        split
        · rename_i c r1 hs1
          rw [hs1] at l2
          simp only [List.length_cons] at l2
          rw [ih G r1 (by omega) (by omega)]
        · rfl

theorem parseElems_shorter (pv : Bytes → Option (JValue × Bytes)) (hpv : Shortens pv) :
    ∀ (F : Nat), Shortens (parseElems pv F) := by
  intro F
  induction F with
  | zero => intro s v r h; simp [parseElems] at h
  | succ F ih =>
    intro s v r h
    simp only [parseElems] at h
    have l0 := skipSpace_length_le s
    split at h
    · contradiction
    · rename_i x r0 hx
      have l1 := hpv _ _ _ hx
      have l2 := skipSpace_length_le r0
      split at h
      · rename_i c r1 hs1
        rw [hs1] at l2
        simp only [List.length_cons] at l2
        repeat' split at h
        all_goals first
          | contradiction
          | (simp only [Option.some.injEq, Prod.mk.injEq] at h
             rw [← h.2]
             first
               | omega
               | (have l3 := ih _ _ _ (by assumption); omega))
      · contradiction

/-- Every value scanned takes at least one byte. -/
theorem parseValue_shorter : ∀ d : Nat, Shortens (parseValue d) := by
  intro d
  induction d with
  | zero =>
    intro s v r h
    rw [parseValue_eq] at h
    unfold parseValueWith at h
    split at h
    · contradiction
    · rename_i b r0
      simp only [List.length_cons]
      repeat' split at h
      all_goals first
        | contradiction
        | (simp only [Option.some.injEq, Prod.mk.injEq] at h
           rw [← h.2]
           first
             | (have hlen := scanString_shorter _ _ _ _ (by assumption); omega)
             | (have hlen := scanNumber_shorter _ _ _ (by assumption)
                simp only [List.length_cons] at hlen; omega)
             | (simp only [List.length_drop]; omega))
  | succ d ih =>
    intro s v r h
    rw [parseValue_eq] at h
    unfold parseValueWith at h
    split at h
    · contradiction
    · rename_i b r0
      simp only [List.length_cons]
      have ls := skipSpace_length_le r0
      repeat' split at h
      all_goals first
        | contradiction
        | (simp only [Option.some.injEq, Prod.mk.injEq] at h
           rw [← h.2]
           first
             | (have hlen := scanString_shorter _ _ _ _ (by assumption); omega)
             | (have hlen := scanNumber_shorter _ _ _ (by assumption)
                simp only [List.length_cons] at hlen; omega)
             | (simp only [List.length_drop]; omega)
             | (rename_i hinner _ _ _ _ hms
                simp only [Option.some.injEq] at hinner
                subst hinner
                first
                  | (have hlen := parseElems_shorter _ ih _ _ _ _ hms; omega)
                  | (have hlen := parseMembers_shorter _ ih _ _ _ _ hms; omega)))


/-- The bounds `parseValueWith` passes, the length of the input, are enough:
any larger bound gives the same string, elements and members. -/
theorem scan_bounds_suffice (d : Nat) (r : Bytes) (F : Nat) (hF : r.length ≤ F) :
    scanString F r = scanString r.length r ∧
    parseElems (parseValue d) F r = parseElems (parseValue d) r.length r ∧
    parseMembers (parseValue d) F r = parseMembers (parseValue d) r.length r :=
  ⟨scanString_fuel F r.length r hF (Nat.le_refl _),
    parseElems_fuel _ (parseValue_shorter d) F r.length r hF (Nat.le_refl _),
    parseMembers_fuel _ (parseValue_shorter d) F r.length r hF (Nat.le_refl _)⟩

theorem scan_bounds_suffice_example :
    [0x22, 0x5D].length ≤ 9 ∧
    (scanString 9 [0x22, 0x5D] = scanString [0x22, 0x5D].length [0x22, 0x5D] ∧
    parseElems (parseValue 3) 9 [0x22, 0x5D]
      = parseElems (parseValue 3) [0x22, 0x5D].length [0x22, 0x5D] ∧
    parseMembers (parseValue 3) 9 [0x22, 0x5D]
      = parseMembers (parseValue 3) [0x22, 0x5D].length [0x22, 0x5D]) :=
  ⟨by decide, scan_bounds_suffice 3 [0x22, 0x5D] 9 (by decide)⟩
/-! ## Facts about the program -/

theorem inInt64_wrapInt64 (i : Int) : InInt64 (wrapInt64 i) := by
  unfold InInt64 wrapInt64
  norm_num
  omega

theorem wrapInt64_eq (i : Int) (h : InInt64 i) : wrapInt64 i = i := by
  unfold InInt64 at h
  unfold wrapInt64
  norm_num at h ⊢
  omega

/-- A successful read means the file could be read. -/
theorem readFault_of_read (w : World) (ts : List Task) (h : readTasksFromFile w = .ok ts) :
    w.readFault = false := by
  unfold readTasksFromFile readFile at h
  cases hf : w.readFault
  · rfl
  · rw [hf] at h; simp at h

/-- Every task read from the file is well formed. -/
theorem readTasksFromFile_wf (w : World) (ts : List Task)
    (h : readTasksFromFile w = .ok ts) : ∀ t ∈ ts, WellFormed t := by
  unfold readTasksFromFile at h
  split at h
  · simp only [Except.ok.injEq] at h
    rw [← h]; intro t ht; exact absurd ht (List.not_mem_nil _)
  · contradiction
  · rename_i bytes _
    split at h
    · contradiction
    · rename_i tasks hu
      simp only [Except.ok.injEq] at h
      rw [← h]
      exact unmarshal_wf bytes tasks hu

/-- Reading a world whose file holds written tasks, when the file can be read. -/
theorem read_written (w : World) (ts : List Task) (hr : w.readFault = false)
    (hf : w.file = some (marshalArray ts)) (hid : ∀ t ∈ ts, InInt64 t.ID) :
    readTasksFromFile w = .ok (ts.map storedTask) := by
  unfold readTasksFromFile readFile
  rw [hr, hf]
  simp only [Bool.false_eq_true, if_false]
  rw [unmarshal_marshalArray ts hid]

/-- A slice that is not nil is written as the array of its elements. -/
theorem marshalIndent_slice (ts : List Task) :
    marshalIndent (TaskSlice.slice ts) = marshalArray ts := rfl

/-- What is written for any slice is read as the elements of the slice, with
the titles coerced to valid UTF-8. -/
theorem unmarshal_marshalIndent (s : TaskSlice) (hid : ∀ t ∈ s.toList, InInt64 t.ID) :
    unmarshal (marshalIndent s) = .ok (s.toList.map storedTask) := by
  cases s with
  | nil => exact unmarshal_null.1
  | slice ts => exact unmarshal_marshalArray ts hid

/-- A write that does not fail puts the marshalled tasks in the file. -/
theorem writeTasksToFile_ok (w : World) (s : TaskSlice) (hw : w.writeFault = none) :
    writeTasksToFile s w = ({ w with file := some (marshalIndent s) }, none) := by
  unfold writeTasksToFile writeFile
  rw [hw]

/-- A write that fails reports the failure. -/
theorem writeTasksToFile_fail (w : World) (s : TaskSlice) (left : Option Bytes)
    (hw : w.writeFault = some left) :
    writeTasksToFile s w = ({ w with file := left }, some Error.writeFailed) := by
  unfold writeTasksToFile writeFile
  rw [hw]

/-- What `addTask` does when the read and the write succeed. -/
theorem addTask_ok (w : World) (ts : List Task) (title : Bytes)
    (hread : readTasksFromFile w = .ok ts) (hwrite : w.writeFault = none) :
    addTask title w = Outcome.returned
      (({ w with file := some (marshalArray
          (ts ++ [⟨wrapInt64 ((ts.length : Int) + 1), title, false⟩])) } : World).print
        (sprintln [utf8 "Задача добавлена:",
          formatTask ⟨wrapInt64 ((ts.length : Int) + 1), title, false⟩])) := by
  unfold addTask
  rw [hread]
  simp only [writeTasksToFile_ok w _ hwrite, marshalIndent_slice]

/-- When `addTask` returns, the write has succeeded. -/
theorem addTask_returned (w w1 : World) (title : Bytes)
    (h : addTask title w = Outcome.returned w1) :
    ∃ ts, readTasksFromFile w = .ok ts ∧ w.writeFault = none := by
  unfold addTask at h
  split at h
  · contradiction
  · rename_i ts hts
    refine ⟨ts, hts, ?_⟩
    cases hw : w.writeFault with
    | none => rfl
    | some left =>
      simp only [writeTasksToFile_fail w _ left hw] at h
      contradiction

theorem findTask_spec (id : Int) : ∀ (ts : List Task) (k : Nat),
    (findTask id ts k = -1 ∧ ∀ t ∈ ts, t.ID ≠ id) ∨
    (∃ i t, ts[i]? = some t ∧ t.ID = id ∧
      (∀ j t1, j < i → ts[j]? = some t1 → t1.ID ≠ id) ∧ findTask id ts k = ((k + i : Nat) : Int)) := by
  intro ts
  induction ts with
  | nil => intro k; left; exact ⟨rfl, fun t ht => absurd ht (List.not_mem_nil _)⟩
  | cons t ts ih =>
    intro k
    simp only [findTask]
    by_cases h : t.ID = id
    · right
      rw [if_pos h]
      refine ⟨0, t, by simp, h, ?_, by simp⟩
      intro j t1 hj; omega
    · rw [if_neg h]
      rcases ih (k + 1) with ⟨h1, h2⟩ | ⟨i, t0, h1, h2, h3, h4⟩
      · left
        refine ⟨h1, ?_⟩
        intro x hx
        rcases List.mem_cons.mp hx with e | e
        · rw [e]; exact h
        · exact h2 x e
      · right
        refine ⟨i + 1, t0, by simpa using h1, h2, ?_, ?_⟩
        · intro j t1 hj hg
          cases j with
          | zero =>
            simp only [List.getElem?_cons_zero, Option.some.injEq] at hg
            rw [← hg]; exact h
          | succ j =>
            simp only [List.getElem?_cons_succ] at hg
            exact h3 j t1 (by omega) hg
        · rw [h4]; push_cast; ring

theorem setComplete_eq_set : ∀ (ts : List Task) (i : Nat) (t : Task), ts[i]? = some t →
    setComplete ts i = ts.set i { t with Complete := true } := by
  intro ts
  induction ts with
  | nil => intro i t h; simp at h
  | cons x xs ih =>
    intro i t h
    cases i with
    | zero =>
      simp only [List.getElem?_cons_zero, Option.some.injEq] at h
      subst h; rfl
    | succ i =>
      simp only [List.getElem?_cons_succ] at h
      simp only [setComplete, List.set_cons_succ, ih i t h]

/-- What `markTaskComplete` does when no task has the identifier. -/
theorem markTaskComplete_absent (w : World) (ts : List Task) (id : Int)
    (hread : readTasksFromFile w = .ok ts) (hid : ∀ t ∈ ts, t.ID ≠ id) :
    markTaskComplete id w = Outcome.returned
      (w.print (sprintln [utf8 "Задача с таким ID не найдена."])) := by
  unfold markTaskComplete
  rw [hread]
  rcases findTask_spec id ts 0 with ⟨h1, _⟩ | ⟨i, t, h1, h2, _, _⟩
  · simp only [h1, if_true]
  · exact absurd h2 (hid t (List.getElem?_mem h1))

/-- What `markTaskComplete` does when some task has the identifier and the write
succeeds: the first such task is marked. -/
theorem markTaskComplete_present (w : World) (ts : List Task) (id : Int)
    (hread : readTasksFromFile w = .ok ts) (hwrite : w.writeFault = none)
    (i : Nat) (t : Task) (hi : ts[i]? = some t) (ht : t.ID = id)
    (hfirst : ∀ j t1, j < i → ts[j]? = some t1 → t1.ID ≠ id) :
    markTaskComplete id w = Outcome.returned
      (({ w with file := some (marshalArray (ts.set i { t with Complete := true })) } : World).print
        (sprintln [utf8 "Задача отмечена как выполненная:",
          formatTask { t with Complete := true }])) := by
  have hidx : findTask id ts 0 = (i : Int) := by
    rcases findTask_spec id ts 0 with ⟨_, h2⟩ | ⟨i1, t1, h1, h2, h3, h4⟩
    · exact absurd ht (h2 t (List.getElem?_mem hi))
    · have e : i1 = i := by
        rcases Nat.lt_trichotomy i1 i with c | c | c
        · exact absurd h2 (hfirst i1 t1 c h1)
        · exact c
        · exact absurd ht (h3 i t c hi)
      rw [h4, e]; simp
  have hlt : i < ts.length := by
    rcases Nat.lt_or_ge i ts.length with c | c
    · exact c
    · rw [List.getElem?_eq_none c] at hi; contradiction
  unfold markTaskComplete
  rw [hread]
  simp only [hidx]
  rw [if_neg (by omega)]
  simp only [Int.toNat_ofNat, setComplete_eq_set ts i t hi, writeTasksToFile_ok w _ hwrite,
    marshalIndent_slice]
  have hg : (ts.set i { t with Complete := true }).getD i ⟨0, [], false⟩
      = { t with Complete := true } := by
    rw [List.getD_eq_getElem?_getD, List.getElem?_set_self hlt]
    rfl
  rw [hg]

/-- When `markTaskComplete` returns, either no task has the identifier, or the
write has succeeded. -/
theorem markTaskComplete_returned (w w1 : World) (id : Int)
    (h : markTaskComplete id w = Outcome.returned w1) :
    ∃ ts, readTasksFromFile w = .ok ts ∧
      ((∀ t ∈ ts, t.ID ≠ id) ∨ (w.writeFault = none ∧ ∃ t ∈ ts, t.ID = id)) := by
  unfold markTaskComplete at h
  split at h
  · contradiction
  · rename_i ts hts
    refine ⟨ts, hts, ?_⟩
    rcases findTask_spec id ts 0 with ⟨_, h2⟩ | ⟨i, t, h1, h2, h3, h4⟩
    · left; exact h2
    · right
      refine ⟨?_, t, List.getElem?_mem h1, h2⟩
      cases hw : w.writeFault with
      | none => rfl
      | some left =>
        simp only [h4] at h
        rw [if_neg (by omega)] at h
        simp only [writeTasksToFile_fail w _ left hw] at h
        contradiction

theorem printTasks_eq : ∀ (ts : List Task) (w : World),
    printTasks ts w = { w with stdout := w.stdout ++ ts.map taskLine } := by
  intro ts
  induction ts with
  | nil => intro w; simp [printTasks]
  | cons t ts ih =>
    intro w
    simp only [printTasks, ih, World.print, List.map_cons, List.append_assoc,
      List.singleton_append]


/-- Reading depends on the file and on the read fault alone. -/
theorem read_congr (w w1 : World) (hf : w1.file = w.file) (hr : w1.readFault = w.readFault) :
    readTasksFromFile w1 = readTasksFromFile w := by
  unfold readTasksFromFile readFile
  rw [hf, hr]

/-- What `listTasks` does when the read succeeds. -/
theorem listTasks_ok (w : World) (ts : List Task) (hread : readTasksFromFile w = .ok ts) :
    listTasks w = Outcome.returned
      (if ts = [] then w.print (sprintln [utf8 "Нет задач для отображения."])
       else { w with stdout := w.stdout ++ sprintln [utf8 "Список задач:"] :: ts.map taskLine }) := by
  unfold listTasks
  rw [hread]
  cases ts with
  | nil => simp
  | cons t ts =>
    simp only [List.length_cons, Nat.add_one_ne_zero, if_false, reduceCtorEq, printTasks_eq,
      World.print, List.append_assoc, List.singleton_append]

/-- The stored list after `addTask`, when the read and the write succeed. -/
theorem read_after_addTask (w : World) (ts : List Task) (title : Bytes)
    (hread : readTasksFromFile w = .ok ts) (hwrite : w.writeFault = none) :
    ∃ w1, addTask title w = Outcome.returned w1 ∧
      w1.stdout = w.stdout ++ [sprintln [utf8 "Задача добавлена:",
          formatTask ⟨wrapInt64 ((ts.length : Int) + 1), title, false⟩]] ∧
      readTasksFromFile w1
        = .ok (ts ++ [⟨wrapInt64 ((ts.length : Int) + 1), toValidUTF8 title, false⟩]) := by
  refine ⟨_, addTask_ok w ts title hread hwrite, rfl, ?_⟩
  have hwf := readTasksFromFile_wf w ts hread
  refine Eq.trans (read_written _
    (ts ++ [(⟨wrapInt64 ((ts.length : Int) + 1), title, false⟩ : Task)]) ?_ ?_ ?_) ?_
  · exact readFault_of_read w ts hread
  · rfl
  · intro t ht
    rcases List.mem_append.mp ht with h | h
    · exact (hwf t h).1
    · simp only [List.mem_singleton] at h
      rw [h]; exact inInt64_wrapInt64 _
  · rw [List.map_append, map_storedTask_wf ts hwf]
    rfl

theorem wellFormed_set (ts : List Task) (i : Nat) (t : Task) (hi : ts[i]? = some t)
    (hwf : ∀ x ∈ ts, WellFormed x) : ∀ x ∈ ts.set i { t with Complete := true }, WellFormed x := by
  intro x hx
  rcases List.mem_or_eq_of_mem_set hx with h | h
  · exact hwf x h
  · rw [h]; exact hwf t (List.getElem?_mem hi)

/-- The stored list after `markTaskComplete`, when a task has the identifier
and the write succeeds. -/
theorem read_after_mark (w : World) (ts : List Task) (id : Int)
    (hread : readTasksFromFile w = .ok ts) (hwrite : w.writeFault = none)
    (i : Nat) (t : Task) (hi : ts[i]? = some t) (ht : t.ID = id)
    (hfirst : ∀ j t1, j < i → ts[j]? = some t1 → t1.ID ≠ id) :
    ∃ w1, markTaskComplete id w = Outcome.returned w1 ∧
      w1.stdout = w.stdout ++ [sprintln [utf8 "Задача отмечена как выполненная:",
          formatTask { t with Complete := true }]] ∧
      readTasksFromFile w1 = .ok (ts.set i { t with Complete := true }) := by
  refine ⟨_, markTaskComplete_present w ts id hread hwrite i t hi ht hfirst, rfl, ?_⟩
  have hwf := wellFormed_set ts i t hi (readTasksFromFile_wf w ts hread)
  refine Eq.trans (read_written _ (ts.set i { t with Complete := true }) ?_ ?_
    (fun x hx => (hwf x hx).1)) ?_
  · exact readFault_of_read w ts hread
  · rfl
  · rw [map_storedTask_wf _ hwf]


theorem digitChar_toNat (d : Nat) (hd : d < 10) : (Nat.digitChar d).toNat = 0x30 + d := by
  interval_cases d <;> rfl

theorem toDigitsCore_formatNatAux : ∀ (f n : Nat) (ds : List Char),
    (Nat.toDigitsCore 10 f n ds).map Char.toNat = formatNatAux f n (ds.map Char.toNat) := by
  intro f
  induction f with
  | zero => intro n ds; simp [Nat.toDigitsCore, formatNatAux]
  | succ f ih =>
    intro n ds
    simp only [Nat.toDigitsCore, formatNatAux]
    by_cases h : n < 10
    · have h0 : n / 10 = 0 := by omega
      have h1 : n % 10 = n := by omega
      rw [if_pos h0, if_pos h, h1, List.map_cons, digitChar_toNat n h]
    · have h0 : ¬ n / 10 = 0 := by omega
      rw [if_neg h0, if_neg h, ih, List.map_cons, digitChar_toNat _ (Nat.mod_lt _ (by decide))]

/-- The digits `formatNat` writes are those of the decimal numeral. -/
theorem formatNat_eq_repr (n : Nat) : formatNat n = (Nat.repr n).data.map Char.toNat := by
  unfold formatNat Nat.repr Nat.toDigits
  simp only [List.asString]
  rw [toDigitsCore_formatNatAux]
  rfl

/-- What `formatInt` writes is the decimal numeral of the integer, with a minus
sign when it is negative. -/
theorem formatInt_eq_toString (i : Int) : formatInt i = (toString i).data.map Char.toNat := by
  unfold formatInt
  cases i with
  | ofNat n =>
    have h : ¬ (Int.ofNat n < 0) := by simp
    rw [if_neg h]
    show formatNat n = _
    rw [formatNat_eq_repr]
    rfl
  | negSucc n =>
    have h : Int.negSucc n < 0 := Int.negSucc_lt_zero n
    rw [if_pos h]
    show 0x2D :: formatNat (n + 1) = _
    rw [formatNat_eq_repr]
    rfl

/-- A decimal numeral is made of digits, after a minus sign if there is one. -/
theorem formatInt_bytes (i : Int) :
    ∀ b ∈ formatInt i, b = 0x2D ∨ (0x30 ≤ b ∧ b ≤ 0x39) := by
  intro b hb
  unfold formatInt at hb
  split at hb
  · rcases List.mem_cons.mp hb with e | e
    · left; exact e
    · right; exact (formatNat_decimal _).all_digits b e
  · right; exact (formatNat_decimal _).all_digits b hb

theorem count_newline_formatInt (i : Int) : (formatInt i).count 0x0A = 0 := by
  rw [List.count_eq_zero]
  intro hm
  have h := formatInt_bytes i _ hm
  omega

/-- The text of a task has one newline more than the title: the one at its end. -/
theorem count_newline_taskLine (t : Task) :
    (taskLine t).count 0x0A = t.Title.count 0x0A + 1 := by
  have hs : (statusText t.Complete).count 0x0A = 0 := by cases t.Complete <;> decide
  unfold taskLine
  simp only [List.count_append, count_newline_formatInt, hs]
  have h1 : List.count 0x0A [0x2E, 0x20] = 0 := by decide
  have h2 : List.count 0x0A [0x20, 0x5B] = 0 := by decide
  have h3 : List.count 0x0A [0x5D, 0x0A] = 1 := by decide
  rw [h1, h2, h3]
  omega

/-- The text of a task ends with a newline. -/
theorem getLast_taskLine (t : Task) : (taskLine t).getLast? = some 0x0A := by
  unfold taskLine
  rw [List.getLast?_append]
  rfl

/-- The number of newlines in the texts of the tasks. -/
theorem count_newline_taskLines (ts : List Task) :
    ((ts.map taskLine).flatten).count 0x0A
      = ts.length + (ts.map (fun t => t.Title.count 0x0A)).sum := by
  induction ts with
  | nil => rfl
  | cons t ts ih =>
    simp only [List.map_cons, List.flatten_cons, List.count_append, ih, count_newline_taskLine,
      List.length_cons, List.sum_cons]
    omega

/-- Titles without a newline: as many newlines as tasks. -/
theorem count_newline_taskLines_plain (ts : List Task) (h : ∀ t ∈ ts, 0x0A ∉ t.Title) :
    ((ts.map taskLine).flatten).count 0x0A = ts.length := by
  rw [count_newline_taskLines]
  have hz : (ts.map (fun t => t.Title.count 0x0A)).sum = 0 := by
    induction ts with
    | nil => rfl
    | cons t ts ih =>
      have h0 : t.Title.count 0x0A = 0 := List.count_eq_zero.mpr (h t (List.mem_cons_self _ _))
      simp only [List.map_cons, List.sum_cons, h0, Nat.zero_add]
      exact ih (fun x hx => h x (List.mem_cons_of_mem _ hx))
  rw [hz]; rfl

/-- No text of a task starts as a sentence of the program does: it starts with
a digit or a minus sign. -/
theorem taskLine_head (t : Task) :
    ∃ b r, taskLine t = b :: r ∧ (b = 0x2D ∨ (0x30 ≤ b ∧ b ≤ 0x39)) := by
  obtain ⟨b, r, he, hb⟩ := formatInt_head t.ID
  refine ⟨b, r ++ [0x2E, 0x20] ++ t.Title ++ [0x20, 0x5B] ++ statusText t.Complete
    ++ [0x5D, 0x0A], ?_, hb⟩
  unfold taskLine
  rw [he]
  simp

/-- `fmt.Println` of one operand writes the operand and a newline. -/
theorem sprintln_one (a : Bytes) : sprintln [a] = a ++ [0x0A] := rfl
/-! ## The claims -/


/-- C1.  For every stored list `ts` of length K and every title that is a text
(valid UTF-8, as every title that `fmt.Scanln` reads is), when the write does
not fail, `addTask` returns and the list stored afterwards is `ts` followed by
one new task: it has length K+1, its first K tasks are those of `ts`, unchanged
and in the same order, and its last task has the identifier K+1, the given title
and `complete = false`.  In particular the task added to an empty store gets the
identifier 1.  (K+1 is below 2^63, as the length of a Go slice is.) -/
theorem addTask_appends_task (w : World) (ts : List Task) (title : Bytes)
    (hread : readTasksFromFile w = .ok ts) (hwrite : w.writeFault = none)
    (htext : ValidUTF8 title) (hlen : (ts.length : Int) + 1 < 2 ^ 63) :
    ∃ (w1 : World) (ts1 : List Task), addTask title w = Outcome.returned w1 ∧
      readTasksFromFile w1 = .ok ts1 ∧
      ts1 = ts ++ [⟨(ts.length : Int) + 1, title, false⟩] ∧
      ts1.length = ts.length + 1 ∧
      (∀ i, i < ts.length → ts1[i]? = ts[i]?) ∧
      ts1[ts.length]? = some ⟨(ts.length : Int) + 1, title, false⟩ ∧
      (ts = [] → ts1 = [⟨1, title, false⟩]) := by
  obtain ⟨w1, h1, _, h2⟩ := read_after_addTask w ts title hread hwrite
  have hw : wrapInt64 ((ts.length : Int) + 1) = (ts.length : Int) + 1 := by
    apply wrapInt64_eq
    unfold InInt64
    constructor
    · have : (0 : Int) ≤ (ts.length : Int) := Int.ofNat_nonneg _
      norm_num
      omega
    · exact hlen
  unfold ValidUTF8 at htext
  rw [hw, htext] at h2
  refine ⟨w1, _, h1, h2, rfl, by simp, ?_, by simp, ?_⟩
  · intro i hi
    exact List.getElem?_append_left hi
  · intro he
    rw [he]
    rfl

/-- C1: adding the title `Отчёт` to the store of two tasks stores it as the
third task, with identifier 3, after the two tasks; adding the title `Buy milk`
at the first start stores one task with identifier 1. -/
theorem addTask_appends_task_witness :
    (readTasksFromFile twoTaskWorld = .ok twoTasks ∧ ValidUTF8 (utf8 "Отчёт") ∧
      ∃ (w1 : World) (ts1 : List Task),
        addTask (utf8 "Отчёт") twoTaskWorld = Outcome.returned w1 ∧
        readTasksFromFile w1 = .ok ts1 ∧
        ts1 = twoTasks ++ [⟨(twoTasks.length : Int) + 1, utf8 "Отчёт", false⟩] ∧
        ts1.length = twoTasks.length + 1 ∧
        (∀ i, i < twoTasks.length → ts1[i]? = twoTasks[i]?) ∧
        ts1[twoTasks.length]? = some ⟨(twoTasks.length : Int) + 1, utf8 "Отчёт", false⟩ ∧
        (twoTasks = [] → ts1 = [⟨1, utf8 "Отчёт", false⟩])) ∧
    (readTasksFromFile freshWorld = .ok [] ∧ ValidUTF8 (utf8 "Buy milk") ∧
      ∃ (w1 : World) (ts1 : List Task),
        addTask (utf8 "Buy milk") freshWorld = Outcome.returned w1 ∧
        readTasksFromFile w1 = .ok ts1 ∧
        ts1 = [] ++ [⟨(([] : List Task).length : Int) + 1, utf8 "Buy milk", false⟩] ∧
        ts1.length = ([] : List Task).length + 1 ∧
        (∀ i, i < ([] : List Task).length → ts1[i]? = ([] : List Task)[i]?) ∧
        ts1[([] : List Task).length]?
          = some ⟨(([] : List Task).length : Int) + 1, utf8 "Buy milk", false⟩ ∧
        (([] : List Task) = [] → ts1 = [⟨1, utf8 "Buy milk", false⟩])) :=
  ⟨⟨by decide, by decide,
      addTask_appends_task twoTaskWorld twoTasks (utf8 "Отчёт") (by decide) rfl (by decide)
        (by decide)⟩,
    ⟨by decide, by decide,
      addTask_appends_task freshWorld [] (utf8 "Buy milk") (by decide) rfl (by decide)
        (by decide)⟩⟩

/-- C2.  For every stored list and every identifier that no stored task has,
`markTaskComplete` returns with the file as it was, so that the stored list is
unchanged, and reports "not found": the one text it writes is the message that
no task has this identifier. -/
theorem markTaskComplete_unknown_id (w : World) (ts : List Task) (id : Int)
    (hread : readTasksFromFile w = .ok ts) (hid : ∀ t ∈ ts, t.ID ≠ id) :
    ∃ w1, markTaskComplete id w = Outcome.returned w1 ∧
      w1.file = w.file ∧ readTasksFromFile w1 = .ok ts ∧
      w1.stdout = w.stdout ++ [sprintln [utf8 "Задача с таким ID не найдена."]] := by
  refine ⟨_, markTaskComplete_absent w ts id hread hid, rfl, ?_, rfl⟩
  rw [← hread]
  exact read_congr _ _ rfl rfl

/-- C2: in a store with the one task 1, marking the identifier 7 changes
nothing and reports "not found". -/
theorem markTaskComplete_unknown_id_witness :
    readTasksFromFile ⟨some (marshalArray [⟨1, utf8 "Buy milk", false⟩]), false, none, []⟩
      = .ok [⟨1, utf8 "Buy milk", false⟩] ∧
    (∀ t ∈ [(⟨1, utf8 "Buy milk", false⟩ : Task)], t.ID ≠ 7) ∧
    ∃ w1, markTaskComplete 7
        ⟨some (marshalArray [⟨1, utf8 "Buy milk", false⟩]), false, none, []⟩
          = Outcome.returned w1 ∧
      w1.file = some (marshalArray [⟨1, utf8 "Buy milk", false⟩]) ∧
      readTasksFromFile w1 = .ok [⟨1, utf8 "Buy milk", false⟩] ∧
      w1.stdout = [] ++ [sprintln [utf8 "Задача с таким ID не найдена."]] :=
  ⟨by decide, by decide,
    markTaskComplete_unknown_id
      ⟨some (marshalArray [⟨1, utf8 "Buy milk", false⟩]), false, none, []⟩
      [⟨1, utf8 "Buy milk", false⟩] 7 (by decide) (by decide)⟩

/-- C3.  For every slice of N tasks, N ≥ 0 (the nil slice and the empty slice
are the slices with N = 0), whose titles are texts (valid UTF-8) and whose
identifiers are values of `int`, when the file can be written and read,
`writeTasksToFile` succeeds, and `readTasksFromFile` then succeeds and returns
the same N tasks: as many tasks, in the same order, each with the same
identifier, title and flag. -/
theorem write_then_read (w : World) (s : TaskSlice)
    (hwrite : w.writeFault = none) (hreadable : w.readFault = false)
    (hid : ∀ t ∈ s.toList, InInt64 t.ID) (htext : ∀ t ∈ s.toList, ValidUTF8 t.Title) :
    (writeTasksToFile s w).2 = none ∧
    (writeTasksToFile s w).1.file = some (marshalIndent s) ∧
    readTasksFromFile (writeTasksToFile s w).1 = .ok s.toList := by
  rw [writeTasksToFile_ok w s hwrite]
  refine ⟨rfl, rfl, ?_⟩
  unfold readTasksFromFile readFile
  simp only [hreadable, Bool.false_eq_true, if_false]
  rw [unmarshal_marshalIndent s hid, map_storedTask_wf s.toList (fun t ht => ⟨hid t ht, htext t ht⟩)]

/-- C3: two tasks, one of them complete and with a Cyrillic title, written at
the first start and read back; the nil slice, written as `null`, and the empty
slice, written as `[]`, are both read back as no task. -/
theorem write_then_read_witness :
    ((∀ t ∈ (TaskSlice.slice
          [⟨1, utf8 "Buy milk", false⟩, ⟨2, utf8 "Пить чай", true⟩]).toList, InInt64 t.ID) ∧
      (∀ t ∈ (TaskSlice.slice
          [⟨1, utf8 "Buy milk", false⟩, ⟨2, utf8 "Пить чай", true⟩]).toList,
        ValidUTF8 t.Title) ∧
      (writeTasksToFile (TaskSlice.slice
          [⟨1, utf8 "Buy milk", false⟩, ⟨2, utf8 "Пить чай", true⟩]) freshWorld).2 = none ∧
      (writeTasksToFile (TaskSlice.slice
          [⟨1, utf8 "Buy milk", false⟩, ⟨2, utf8 "Пить чай", true⟩]) freshWorld).1.file
        = some (marshalIndent (TaskSlice.slice
            [⟨1, utf8 "Buy milk", false⟩, ⟨2, utf8 "Пить чай", true⟩])) ∧
      readTasksFromFile (writeTasksToFile (TaskSlice.slice
          [⟨1, utf8 "Buy milk", false⟩, ⟨2, utf8 "Пить чай", true⟩]) freshWorld).1
        = .ok (TaskSlice.slice
            [⟨1, utf8 "Buy milk", false⟩, ⟨2, utf8 "Пить чай", true⟩]).toList) ∧
    (marshalIndent TaskSlice.nil = utf8 "null" ∧
      (writeTasksToFile TaskSlice.nil freshWorld).2 = none ∧
      (writeTasksToFile TaskSlice.nil freshWorld).1.file = some (marshalIndent TaskSlice.nil) ∧
      readTasksFromFile (writeTasksToFile TaskSlice.nil freshWorld).1
        = .ok TaskSlice.nil.toList) ∧
    (marshalIndent (TaskSlice.slice []) = utf8 "[]" ∧
      (writeTasksToFile (TaskSlice.slice []) freshWorld).2 = none ∧
      (writeTasksToFile (TaskSlice.slice []) freshWorld).1.file
        = some (marshalIndent (TaskSlice.slice [])) ∧
      readTasksFromFile (writeTasksToFile (TaskSlice.slice []) freshWorld).1
        = .ok (TaskSlice.slice []).toList) :=
  ⟨⟨by decide, by decide,
      write_then_read freshWorld
        (TaskSlice.slice [⟨1, utf8 "Buy milk", false⟩, ⟨2, utf8 "Пить чай", true⟩])
        rfl rfl (by decide) (by decide)⟩,
    ⟨by decide, write_then_read freshWorld TaskSlice.nil rfl rfl (by decide) (by decide)⟩,
    ⟨by decide,
      write_then_read freshWorld (TaskSlice.slice []) rfl rfl (by decide) (by decide)⟩⟩

/-- C4.  For every stored list and every identifier that some stored task has,
when the write does not fail, `markTaskComplete` returns and leaves a stored
list of the same length in which the first task with that identifier (at
position `i`) has `complete = true` and its identifier and title as before, and
every other task is unchanged and in its position; the one text written is the
message that the task was marked, not "not found". -/
theorem markTaskComplete_marks_first (w : World) (ts : List Task) (id : Int)
    (hread : readTasksFromFile w = .ok ts) (hwrite : w.writeFault = none)
    (hid : ∃ t ∈ ts, t.ID = id) :
    ∃ (w1 : World) (i : Nat) (t : Task),
      ts[i]? = some t ∧ t.ID = id ∧ (∀ j t1, j < i → ts[j]? = some t1 → t1.ID ≠ id) ∧
      markTaskComplete id w = Outcome.returned w1 ∧
      readTasksFromFile w1 = .ok (ts.set i ⟨t.ID, t.Title, true⟩) ∧
      (ts.set i ⟨t.ID, t.Title, true⟩).length = ts.length ∧
      (∀ j, j ≠ i → (ts.set i ⟨t.ID, t.Title, true⟩)[j]? = ts[j]?) ∧
      w1.stdout = w.stdout ++ [sprintln [utf8 "Задача отмечена как выполненная:",
        formatTask ⟨t.ID, t.Title, true⟩]] ∧
      sprintln [utf8 "Задача с таким ID не найдена."] ∉ w1.stdout.drop w.stdout.length := by
  obtain ⟨t0, ht0, hid0⟩ := hid
  rcases findTask_spec id ts 0 with ⟨hx, h2⟩ | ⟨i, t, h1, h2, h3, hx⟩
  · exact absurd hid0 (h2 t0 ht0)
  · obtain ⟨w1, hm, hout, hr⟩ := read_after_mark w ts id hread hwrite i t h1 h2 h3
    refine ⟨w1, i, t, h1, h2, h3, hm, hr, List.length_set _ _ _, ?_, hout, ?_⟩
    · intro j hj
      rw [List.getElem?_set]
      rw [if_neg (fun e => hj e.symm)]
    · rw [hout, List.drop_left]
      simp only [List.mem_singleton]
      intro e
      have hl := congrArg List.length e
      have h3 : (sprintln [utf8 "Задача с таким ID не найдена."]).length = 51 := by decide
      have h4 : 61 ≤ (sprintln [utf8 "Задача отмечена как выполненная:",
          formatTask ⟨t.ID, t.Title, true⟩]).length := by
        have h5 : (utf8 "Задача отмечена как выполненная:").length = 60 := by decide
        simp only [sprintln, List.length_append, List.length_cons, List.length_nil, h5]
        omega
      omega

/-- C4: in the store of two tasks, marking the identifier 2 marks the second
task and leaves the first alone. -/
theorem markTaskComplete_marks_first_witness :
    readTasksFromFile twoTaskWorld = .ok twoTasks ∧ (∃ t ∈ twoTasks, t.ID = 2) ∧
    ∃ (w1 : World) (i : Nat) (t : Task),
      twoTasks[i]? = some t ∧ t.ID = 2 ∧
      (∀ j t1, j < i → twoTasks[j]? = some t1 → t1.ID ≠ 2) ∧
      markTaskComplete 2 twoTaskWorld = Outcome.returned w1 ∧
      readTasksFromFile w1 = .ok (twoTasks.set i ⟨t.ID, t.Title, true⟩) ∧
      (twoTasks.set i ⟨t.ID, t.Title, true⟩).length = twoTasks.length ∧
      (∀ j, j ≠ i → (twoTasks.set i ⟨t.ID, t.Title, true⟩)[j]? = twoTasks[j]?) ∧
      w1.stdout = twoTaskWorld.stdout ++ [sprintln [utf8 "Задача отмечена как выполненная:",
        formatTask ⟨t.ID, t.Title, true⟩]] ∧
      sprintln [utf8 "Задача с таким ID не найдена."]
        ∉ w1.stdout.drop twoTaskWorld.stdout.length :=
  ⟨by decide, by decide,
    markTaskComplete_marks_first twoTaskWorld twoTasks 2 (by decide) rfl (by decide)⟩

/-- C6, as amended.  When `fmt.Scanln` reads the menu input as an integer
other than 1, 2, 3 and 4, `main` prints the menu, writes the message that the
choice is wrong and goes on with the next round of the menu, the file
untouched.  When `fmt.Scanln` fails on the menu input (a line that is no
integer, an empty line), `main` logs the input error and the process halts, the
file untouched: it does not return to the menu. -/
theorem main_invalid_choice (w : World) (t : Turn) (rest : List Turn) :
    (t.choiceFailed = false → t.choice ≠ 1 → t.choice ≠ 2 → t.choice ≠ 3 → t.choice ≠ 4 →
      main w (t :: rest)
        = main ((printMenu w).print
            (sprintln [utf8 "Неверный выбор. Пожалуйста, выберите опцию снова."])) rest ∧
      ((printMenu w).print
          (sprintln [utf8 "Неверный выбор. Пожалуйста, выберите опцию снова."])).file
        = w.file) ∧
    (t.choiceFailed = true →
      main w (t :: rest) = Outcome.fatal (printMenu w) "Ошибка ввода:" Error.scanFailed ∧
      (printMenu w).file = w.file) := by
  constructor
  · intro h0 h1 h2 h3 h4
    refine ⟨?_, rfl⟩
    simp only [main, h0, Bool.false_eq_true, if_false, h1, h2, h3, h4]
  · intro h0
    refine ⟨?_, rfl⟩
    simp only [main, h0, if_true]

/-- C6: at the first start the input 9 sends `main` back to the menu, where the
input 4 ends the program. -/
theorem main_invalid_choice_witness :
    main freshWorld [⟨false, 9, [], 0⟩, ⟨false, 4, [], 0⟩]
      = main ((printMenu freshWorld).print
          (sprintln [utf8 "Неверный выбор. Пожалуйста, выберите опцию снова."]))
          [⟨false, 4, [], 0⟩] ∧
    ((printMenu freshWorld).print
        (sprintln [utf8 "Неверный выбор. Пожалуйста, выберите опцию снова."])).file
      = freshWorld.file :=
  (main_invalid_choice freshWorld ⟨false, 9, [], 0⟩ [⟨false, 4, [], 0⟩]).1 rfl
    (by decide) (by decide) (by decide) (by decide)

/-- C6 fails as stated for an input that is no integer: `fmt.Scanln` fails,
`main` calls `log.Fatal` and the process halts.  The round with the input 4 that
follows is never played, whatever would have been printed before it. -/
theorem main_non_numeric_choice_halts :
    main freshWorld [⟨true, 0, [], 0⟩, ⟨false, 4, [], 0⟩]
      = Outcome.fatal (printMenu freshWorld) "Ошибка ввода:" Error.scanFailed ∧
    ∀ w1 : World,
      main freshWorld [⟨true, 0, [], 0⟩, ⟨false, 4, [], 0⟩] ≠ main w1 [⟨false, 4, [], 0⟩] := by
  constructor
  · rfl
  · intro w1 h
    simp [main] at h

/-- C7.  `readTasksFromFile` returns the empty list and no error when the file
does not exist; it returns an error when the read fails for another reason, and
the error of `json.Unmarshal` when the contents do not decode as a list of
tasks.  On an error of `readTasksFromFile` each of `addTask`, `listTasks` and
`markTaskComplete` calls `log.Fatal` at once: the process halts in the world it
started in, nothing written to the file. -/
theorem read_errors_halt (w : World) :
    (w.readFault = false → w.file = none → readTasksFromFile w = .ok []) ∧
    (w.readFault = true → readTasksFromFile w = .error Error.readFailed) ∧
    (∀ data e, w.readFault = false → w.file = some data → unmarshal data = .error e →
      readTasksFromFile w = .error e) ∧
    (∀ e, readTasksFromFile w = .error e →
      (∀ title, addTask title w = Outcome.fatal w "Ошибка при чтении задач:" e) ∧
      listTasks w = Outcome.fatal w "Ошибка при чтении задач:" e ∧
      (∀ id, markTaskComplete id w = Outcome.fatal w "Ошибка при чтении задач:" e)) := by
  refine ⟨?_, ?_, ?_, ?_⟩
  · intro hr hf
    simp [readTasksFromFile, readFile, hr, hf]
  · intro hr
    simp [readTasksFromFile, readFile, hr]
  · intro data e hr hf hu
    simp [readTasksFromFile, readFile, hr, hf, hu]
  · intro e he
    refine ⟨?_, ?_, ?_⟩
    · intro title; simp only [addTask, he]
    · simp only [listTasks, he]
    · intro id; simp only [markTaskComplete, he]

/-- C7: a file that holds `not json` makes the read fail with a syntax error,
and every operation halts without touching the file. -/
theorem read_errors_halt_witness :
    readTasksFromFile ⟨some (utf8 "not json"), false, none, []⟩ = .error Error.invalidJSON ∧
    ((∀ title, addTask title ⟨some (utf8 "not json"), false, none, []⟩
        = Outcome.fatal ⟨some (utf8 "not json"), false, none, []⟩
            "Ошибка при чтении задач:" Error.invalidJSON) ∧
      listTasks ⟨some (utf8 "not json"), false, none, []⟩
        = Outcome.fatal ⟨some (utf8 "not json"), false, none, []⟩
            "Ошибка при чтении задач:" Error.invalidJSON ∧
      (∀ id, markTaskComplete id ⟨some (utf8 "not json"), false, none, []⟩
        = Outcome.fatal ⟨some (utf8 "not json"), false, none, []⟩
            "Ошибка при чтении задач:" Error.invalidJSON)) :=
  ⟨by decide,
    (read_errors_halt ⟨some (utf8 "not json"), false, none, []⟩).2.2.2 Error.invalidJSON
      (by decide)⟩

/-- C8.  When the store is empty (the file is absent or holds no task),
`listTasks` writes one text and nothing else: the message that there is no task
to show, `Нет задач для отображения.` and a newline, given here byte by byte.
The text is not the header of the list and not the text of any task.
`listTasks` returns with the file as it was, so the store is unchanged. -/
theorem listTasks_empty_store (w : World) (h : readTasksFromFile w = .ok []) :
    ∃ w1, listTasks w = Outcome.returned w1 ∧
      w1.stdout = w.stdout ++
        [[0xD0, 0x9D, 0xD0, 0xB5, 0xD1, 0x82, 0x20, 0xD0, 0xB7, 0xD0, 0xB0, 0xD0, 0xB4, 0xD0, 0xB0,
         0xD1, 0x87, 0x20, 0xD0, 0xB4, 0xD0, 0xBB, 0xD1, 0x8F, 0x20, 0xD0, 0xBE, 0xD1, 0x82, 0xD0,
         0xBE, 0xD0, 0xB1, 0xD1, 0x80, 0xD0, 0xB0, 0xD0, 0xB6, 0xD0, 0xB5, 0xD0, 0xBD, 0xD0, 0xB8,
         0xD1, 0x8F, 0x2E, 0x0A]] ∧
      utf8 "Нет задач для отображения.\n"
        = [0xD0, 0x9D, 0xD0, 0xB5, 0xD1, 0x82, 0x20, 0xD0, 0xB7, 0xD0, 0xB0, 0xD0, 0xB4, 0xD0,
           0xB0, 0xD1, 0x87, 0x20, 0xD0, 0xB4, 0xD0, 0xBB, 0xD1, 0x8F, 0x20, 0xD0, 0xBE, 0xD1,
           0x82, 0xD0, 0xBE, 0xD0, 0xB1, 0xD1, 0x80, 0xD0, 0xB0, 0xD0, 0xB6, 0xD0, 0xB5, 0xD0,
           0xBD, 0xD0, 0xB8, 0xD1, 0x8F, 0x2E, 0x0A] ∧
      utf8 "Нет задач для отображения.\n" ≠ utf8 "Список задач:\n" ∧
      (∀ t : Task, taskLine t ≠ utf8 "Нет задач для отображения.\n") ∧
      w1.file = w.file ∧ readTasksFromFile w1 = .ok [] := by
  have hm : sprintln [utf8 "Нет задач для отображения."]
      = [0xD0, 0x9D, 0xD0, 0xB5, 0xD1, 0x82, 0x20, 0xD0, 0xB7, 0xD0, 0xB0, 0xD0, 0xB4, 0xD0, 0xB0,
         0xD1, 0x87, 0x20, 0xD0, 0xB4, 0xD0, 0xBB, 0xD1, 0x8F, 0x20, 0xD0, 0xBE, 0xD1, 0x82, 0xD0,
         0xBE, 0xD0, 0xB1, 0xD1, 0x80, 0xD0, 0xB0, 0xD0, 0xB6, 0xD0, 0xB5, 0xD0, 0xBD, 0xD0, 0xB8,
         0xD1, 0x8F, 0x2E, 0x0A] := by
    decide
  have hl := listTasks_ok w [] h
  rw [if_pos rfl] at hl
  refine ⟨_, hl, ?_, by decide, by decide, ?_, rfl, ?_⟩
  · show w.stdout ++ [sprintln [utf8 "Нет задач для отображения."]] = _
    rw [hm]
  · intro t e
    obtain ⟨b, r, he, hb⟩ := taskLine_head t
    have hu : utf8 "Нет задач для отображения.\n"
        = 0xD0 :: (utf8 "Нет задач для отображения.\n").tail := by decide
    rw [he, hu] at e
    injection e with e1 _
    omega
  · rw [← h]
    exact read_congr _ _ rfl rfl

/-- C8: at the first start, and with a file that holds `[]`, `listTasks`
writes the one message. -/
theorem listTasks_empty_store_witness :
    (readTasksFromFile freshWorld = .ok [] ∧
      ∃ w1, listTasks freshWorld = Outcome.returned w1 ∧
        w1.stdout = freshWorld.stdout ++
          [[0xD0, 0x9D, 0xD0, 0xB5, 0xD1, 0x82, 0x20, 0xD0, 0xB7, 0xD0, 0xB0, 0xD0, 0xB4, 0xD0,
           0xB0, 0xD1, 0x87, 0x20, 0xD0, 0xB4, 0xD0, 0xBB, 0xD1, 0x8F, 0x20, 0xD0, 0xBE, 0xD1,
           0x82, 0xD0, 0xBE, 0xD0, 0xB1, 0xD1, 0x80, 0xD0, 0xB0, 0xD0, 0xB6, 0xD0, 0xB5, 0xD0,
           0xBD, 0xD0, 0xB8, 0xD1, 0x8F, 0x2E, 0x0A]] ∧
        utf8 "Нет задач для отображения.\n"
          = [0xD0, 0x9D, 0xD0, 0xB5, 0xD1, 0x82, 0x20, 0xD0, 0xB7, 0xD0, 0xB0, 0xD0, 0xB4, 0xD0,
             0xB0, 0xD1, 0x87, 0x20, 0xD0, 0xB4, 0xD0, 0xBB, 0xD1, 0x8F, 0x20, 0xD0, 0xBE, 0xD1,
             0x82, 0xD0, 0xBE, 0xD0, 0xB1, 0xD1, 0x80, 0xD0, 0xB0, 0xD0, 0xB6, 0xD0, 0xB5, 0xD0,
             0xBD, 0xD0, 0xB8, 0xD1, 0x8F, 0x2E, 0x0A] ∧
        utf8 "Нет задач для отображения.\n" ≠ utf8 "Список задач:\n" ∧
        (∀ t : Task, taskLine t ≠ utf8 "Нет задач для отображения.\n") ∧
        w1.file = freshWorld.file ∧ readTasksFromFile w1 = .ok []) ∧
    (readTasksFromFile ⟨some (utf8 "[]"), false, none, [utf8 "earlier output\n"]⟩ = .ok [] ∧
      listTasks ⟨some (utf8 "[]"), false, none, [utf8 "earlier output\n"]⟩
        = Outcome.returned ⟨some (utf8 "[]"), false, none,
            [utf8 "earlier output\n", utf8 "Нет задач для отображения.\n"]⟩ ∧
      ∃ w1, listTasks ⟨some (utf8 "[]"), false, none, [utf8 "earlier output\n"]⟩
          = Outcome.returned w1 ∧
        w1.stdout = (⟨some (utf8 "[]"), false, none, [utf8 "earlier output\n"]⟩ : World).stdout ++
          [[0xD0, 0x9D, 0xD0, 0xB5, 0xD1, 0x82, 0x20, 0xD0, 0xB7, 0xD0, 0xB0, 0xD0, 0xB4, 0xD0,
           0xB0, 0xD1, 0x87, 0x20, 0xD0, 0xB4, 0xD0, 0xBB, 0xD1, 0x8F, 0x20, 0xD0, 0xBE, 0xD1,
           0x82, 0xD0, 0xBE, 0xD0, 0xB1, 0xD1, 0x80, 0xD0, 0xB0, 0xD0, 0xB6, 0xD0, 0xB5, 0xD0,
           0xBD, 0xD0, 0xB8, 0xD1, 0x8F, 0x2E, 0x0A]] ∧
        utf8 "Нет задач для отображения.\n"
          = [0xD0, 0x9D, 0xD0, 0xB5, 0xD1, 0x82, 0x20, 0xD0, 0xB7, 0xD0, 0xB0, 0xD0, 0xB4, 0xD0,
             0xB0, 0xD1, 0x87, 0x20, 0xD0, 0xB4, 0xD0, 0xBB, 0xD1, 0x8F, 0x20, 0xD0, 0xBE, 0xD1,
             0x82, 0xD0, 0xBE, 0xD0, 0xB1, 0xD1, 0x80, 0xD0, 0xB0, 0xD0, 0xB6, 0xD0, 0xB5, 0xD0,
             0xBD, 0xD0, 0xB8, 0xD1, 0x8F, 0x2E, 0x0A] ∧
        utf8 "Нет задач для отображения.\n" ≠ utf8 "Список задач:\n" ∧
        (∀ t : Task, taskLine t ≠ utf8 "Нет задач для отображения.\n") ∧
        w1.file = (⟨some (utf8 "[]"), false, none, [utf8 "earlier output\n"]⟩ : World).file ∧
        readTasksFromFile w1 = .ok []) :=
  ⟨⟨by decide, listTasks_empty_store freshWorld (by decide)⟩,
    ⟨by decide, by decide,
      listTasks_empty_store ⟨some (utf8 "[]"), false, none, [utf8 "earlier output\n"]⟩
        (by decide)⟩⟩

/-- C9, as amended.  For every non-empty stored list of N tasks, `listTasks`
writes the header, `Список задач:` and a newline, and then exactly N texts, one
for each stored task in stored order.  The text of a task is its identifier as
a decimal numeral, a dot and a blank, its title, a blank, and between brackets
the status, which is `Выполнено` ("done") if and only if the task is complete
and `Не выполнено` ("not done") otherwise, and then a newline; the header and the
two statuses are given byte by byte.  The text of a task ends with a newline and
has one newline more than the title has: the N texts are exactly N lines when no
stored title holds a newline, and N lines and one more for every newline in a
title in general.  `listTasks` returns with the file as it was, so the store is
unchanged. -/
theorem listTasks_lines (w : World) (ts : List Task) (h : readTasksFromFile w = .ok ts)
    (hne : ts ≠ []) :
    ∃ w1, listTasks w = Outcome.returned w1 ∧
      w1.stdout = w.stdout ++
        [0xD0, 0xA1, 0xD0, 0xBF, 0xD0, 0xB8, 0xD1, 0x81, 0xD0, 0xBE, 0xD0, 0xBA, 0x20, 0xD0, 0xB7,
         0xD0, 0xB0, 0xD0, 0xB4, 0xD0, 0xB0, 0xD1, 0x87, 0x3A, 0x0A]
          :: ts.map taskLine ∧
      utf8 "Список задач:\n"
        = [0xD0, 0xA1, 0xD0, 0xBF, 0xD0, 0xB8, 0xD1, 0x81, 0xD0, 0xBE, 0xD0, 0xBA, 0x20, 0xD0,
           0xB7, 0xD0, 0xB0, 0xD0, 0xB4, 0xD0, 0xB0, 0xD1, 0x87, 0x3A, 0x0A] ∧
      (∀ t : Task, taskLine t
        = (toString t.ID).data.map Char.toNat ++ [0x2E, 0x20] ++ t.Title ++ [0x20, 0x5B]
          ++ (if t.Complete = true then
                [0xD0, 0x92, 0xD1, 0x8B, 0xD0, 0xBF, 0xD0, 0xBE, 0xD0, 0xBB, 0xD0, 0xBD, 0xD0,
                 0xB5, 0xD0, 0xBD, 0xD0, 0xBE]
              else
                [0xD0, 0x9D, 0xD0, 0xB5, 0x20, 0xD0, 0xB2, 0xD1, 0x8B, 0xD0, 0xBF, 0xD0, 0xBE,
                 0xD0, 0xBB, 0xD0, 0xBD, 0xD0, 0xB5, 0xD0, 0xBD, 0xD0, 0xBE])
          ++ [0x5D, 0x0A]) ∧
      utf8 "Выполнено"
        = [0xD0, 0x92, 0xD1, 0x8B, 0xD0, 0xBF, 0xD0, 0xBE, 0xD0, 0xBB, 0xD0, 0xBD, 0xD0, 0xB5,
           0xD0, 0xBD, 0xD0, 0xBE] ∧
      utf8 "Не выполнено"
        = [0xD0, 0x9D, 0xD0, 0xB5, 0x20, 0xD0, 0xB2, 0xD1, 0x8B, 0xD0, 0xBF, 0xD0, 0xBE, 0xD0,
           0xBB, 0xD0, 0xBD, 0xD0, 0xB5, 0xD0, 0xBD, 0xD0, 0xBE] ∧
      (∀ t : Task, (taskLine t).getLast? = some 0x0A ∧
        (taskLine t).count 0x0A = t.Title.count 0x0A + 1) ∧
      ((ts.map taskLine).flatten).count 0x0A
        = ts.length + (ts.map (fun t => t.Title.count 0x0A)).sum ∧
      ((∀ t ∈ ts, 0x0A ∉ t.Title) → ((ts.map taskLine).flatten).count 0x0A = ts.length) ∧
      w1.file = w.file ∧ readTasksFromFile w1 = .ok ts := by
  have hm : sprintln [utf8 "Список задач:"]
      = [0xD0, 0xA1, 0xD0, 0xBF, 0xD0, 0xB8, 0xD1, 0x81, 0xD0, 0xBE, 0xD0, 0xBA, 0x20, 0xD0, 0xB7,
         0xD0, 0xB0, 0xD0, 0xB4, 0xD0, 0xB0, 0xD1, 0x87, 0x3A, 0x0A] := by
    decide
  have hl := listTasks_ok w ts h
  rw [if_neg hne, hm] at hl
  refine ⟨_, hl, rfl, by decide, ?_, by decide, by decide, ?_, count_newline_taskLines ts,
    count_newline_taskLines_plain ts, rfl, ?_⟩
  · intro t
    rw [← formatInt_eq_toString]
    cases hc : t.Complete
    · simp only [taskLine, statusText, hc, Bool.false_eq_true, if_false]
      rfl
    · simp only [taskLine, statusText, hc, if_true]
      rfl
  · intro t
    exact ⟨getLast_taskLine t, count_newline_taskLine t⟩
  · rw [← h]
    exact read_congr _ _ rfl rfl

/-- C9: a store of three tasks, the second complete, is listed as the header
and three lines. -/
theorem listTasks_lines_witness :
    readTasksFromFile threeTaskWorld = .ok threeTasks ∧ threeTasks ≠ [] ∧
    listTasks threeTaskWorld
      = Outcome.returned ⟨threeTaskWorld.file, false, none,
          [utf8 "Список задач:\n", utf8 "1. Buy milk [Не выполнено]\n",
            utf8 "2. Пить чай [Выполнено]\n", utf8 "3. Отчёт [Не выполнено]\n"]⟩ ∧
    ∃ w1, listTasks threeTaskWorld = Outcome.returned w1 ∧
      w1.stdout = threeTaskWorld.stdout ++
        [0xD0, 0xA1, 0xD0, 0xBF, 0xD0, 0xB8, 0xD1, 0x81, 0xD0, 0xBE, 0xD0, 0xBA, 0x20, 0xD0, 0xB7,
         0xD0, 0xB0, 0xD0, 0xB4, 0xD0, 0xB0, 0xD1, 0x87, 0x3A, 0x0A]
          :: threeTasks.map taskLine ∧
      utf8 "Список задач:\n"
        = [0xD0, 0xA1, 0xD0, 0xBF, 0xD0, 0xB8, 0xD1, 0x81, 0xD0, 0xBE, 0xD0, 0xBA, 0x20, 0xD0,
           0xB7, 0xD0, 0xB0, 0xD0, 0xB4, 0xD0, 0xB0, 0xD1, 0x87, 0x3A, 0x0A] ∧
      (∀ t : Task, taskLine t
        = (toString t.ID).data.map Char.toNat ++ [0x2E, 0x20] ++ t.Title ++ [0x20, 0x5B]
          ++ (if t.Complete = true then
                [0xD0, 0x92, 0xD1, 0x8B, 0xD0, 0xBF, 0xD0, 0xBE, 0xD0, 0xBB, 0xD0, 0xBD, 0xD0,
                 0xB5, 0xD0, 0xBD, 0xD0, 0xBE]
              else
                [0xD0, 0x9D, 0xD0, 0xB5, 0x20, 0xD0, 0xB2, 0xD1, 0x8B, 0xD0, 0xBF, 0xD0, 0xBE,
                 0xD0, 0xBB, 0xD0, 0xBD, 0xD0, 0xB5, 0xD0, 0xBD, 0xD0, 0xBE])
          ++ [0x5D, 0x0A]) ∧
      utf8 "Выполнено"
        = [0xD0, 0x92, 0xD1, 0x8B, 0xD0, 0xBF, 0xD0, 0xBE, 0xD0, 0xBB, 0xD0, 0xBD, 0xD0, 0xB5,
           0xD0, 0xBD, 0xD0, 0xBE] ∧
      utf8 "Не выполнено"
        = [0xD0, 0x9D, 0xD0, 0xB5, 0x20, 0xD0, 0xB2, 0xD1, 0x8B, 0xD0, 0xBF, 0xD0, 0xBE, 0xD0,
           0xBB, 0xD0, 0xBD, 0xD0, 0xB5, 0xD0, 0xBD, 0xD0, 0xBE] ∧
      (∀ t : Task, (taskLine t).getLast? = some 0x0A ∧
        (taskLine t).count 0x0A = t.Title.count 0x0A + 1) ∧
      ((threeTasks.map taskLine).flatten).count 0x0A
        = threeTasks.length + (threeTasks.map (fun t => t.Title.count 0x0A)).sum ∧
      ((∀ t ∈ threeTasks, 0x0A ∉ t.Title) →
        ((threeTasks.map taskLine).flatten).count 0x0A = threeTasks.length) ∧
      w1.file = threeTaskWorld.file ∧ readTasksFromFile w1 = .ok threeTasks :=
  ⟨by decide, by decide, by decide,
    listTasks_lines threeTaskWorld threeTasks (by decide) (by decide)⟩

/-- C9 fails as stated for a stored title that holds a newline: a file that
holds the one task `a`, newline, `b`, which is complete, is listed as the header
and one text of two lines, so one task takes two task lines. -/
theorem listTasks_title_with_newline :
    readTasksFromFile
        ⟨some (utf8 "[\x7b\"id\": 1, \"title\": \"a\\nb\", \"complete\": true\x7d]"),
          false, none, []⟩
      = .ok [⟨1, utf8 "a\nb", true⟩] ∧
    listTasks
        ⟨some (utf8 "[\x7b\"id\": 1, \"title\": \"a\\nb\", \"complete\": true\x7d]"),
          false, none, []⟩
      = Outcome.returned
          ⟨some (utf8 "[\x7b\"id\": 1, \"title\": \"a\\nb\", \"complete\": true\x7d]"),
            false, none, [utf8 "Список задач:\n", utf8 "1. a\nb [Выполнено]\n"]⟩ ∧
    [(⟨1, utf8 "a\nb", true⟩ : Task)].length = 1 ∧
    utf8 "1. a\nb [Выполнено]\n"
      = [0x31, 0x2E, 0x20, 0x61, 0x0A, 0x62, 0x20, 0x5B, 0xD0, 0x92, 0xD1, 0x8B, 0xD0, 0xBF, 0xD0,
         0xBE, 0xD0, 0xBB, 0xD0, 0xBD, 0xD0, 0xB5, 0xD0, 0xBD, 0xD0, 0xBE, 0x5D, 0x0A] ∧
    (utf8 "1. a\nb [Выполнено]\n").count 0x0A = 2 ∧
    utf8 "1. a\nb [Выполнено]\n" = utf8 "1. a\n" ++ utf8 "b [Выполнено]\n" := by
  decide

/-- C10.  No operation deletes, reorders, renames or un-completes a task: for
every stored list `s` and every single operation that completes (`addTask` with
any title, `markTaskComplete` with any identifier, `listTasks`), the list `s1`
stored afterwards is at least as long as `s`, and at every position of `s` the
task of `s1` has the same identifier and title and is complete whenever it was
complete in `s`. -/
theorem operations_keep_tasks (w w1 : World) (s : List Task)
    (hs : readTasksFromFile w = .ok s)
    (hop : (∃ title, addTask title w = Outcome.returned w1) ∨
      (∃ id, markTaskComplete id w = Outcome.returned w1) ∨
      listTasks w = Outcome.returned w1) :
    ∃ s1, readTasksFromFile w1 = .ok s1 ∧ s.length ≤ s1.length ∧
      ∀ (i : Nat) (t : Task), s[i]? = some t →
        ∃ t1, s1[i]? = some t1 ∧ t1.ID = t.ID ∧ t1.Title = t.Title ∧
          (t.Complete = true → t1.Complete = true) := by
  have same : ∀ w2 : World, w2.file = w.file → w2.readFault = w.readFault →
      ∃ s1, readTasksFromFile w2 = .ok s1 ∧ s.length ≤ s1.length ∧
        ∀ (i : Nat) (t : Task), s[i]? = some t →
          ∃ t1, s1[i]? = some t1 ∧ t1.ID = t.ID ∧ t1.Title = t.Title ∧
            (t.Complete = true → t1.Complete = true) := by
    intro w2 hf hr
    refine ⟨s, ?_, Nat.le_refl _, fun i t hi => ⟨t, hi, rfl, rfl, fun c => c⟩⟩
    rw [← hs]
    exact read_congr _ _ hf hr
  rcases hop with ⟨title, h⟩ | ⟨id, h⟩ | h
  · obtain ⟨ts0, h0, hwr⟩ := addTask_returned w w1 title h
    have e : ts0 = s := by
      rw [hs] at h0
      simp only [Except.ok.injEq] at h0
      exact h0.symm
    subst e
    obtain ⟨w3, h3, _, hr3⟩ := read_after_addTask w ts0 title hs hwr
    rw [h] at h3
    simp only [Outcome.returned.injEq] at h3
    rw [← h3] at hr3
    refine ⟨_, hr3, by simp, ?_⟩
    intro i t hi
    have hlt : i < ts0.length := by
      rcases Nat.lt_or_ge i ts0.length with c | c
      · exact c
      · rw [List.getElem?_eq_none c] at hi; contradiction
    exact ⟨t, by rw [List.getElem?_append_left hlt]; exact hi, rfl, rfl, fun c => c⟩
  · obtain ⟨ts0, h0, hc⟩ := markTaskComplete_returned w w1 id h
    have e : ts0 = s := by
      rw [hs] at h0
      simp only [Except.ok.injEq] at h0
      exact h0.symm
    subst e
    rcases hc with hc | ⟨hwr, t0, ht0, hid0⟩
    · have h3 := markTaskComplete_absent w ts0 id hs hc
      rw [h] at h3
      simp only [Outcome.returned.injEq] at h3
      rw [h3]
      exact same _ rfl rfl
    · rcases findTask_spec id ts0 0 with ⟨hx, h2⟩ | ⟨i, t, h1, h2, h3, hx⟩
      · exact absurd hid0 (h2 t0 ht0)
      · obtain ⟨w3, hm, _, hr3⟩ := read_after_mark w ts0 id hs hwr i t h1 h2 h3
        rw [h] at hm
        simp only [Outcome.returned.injEq] at hm
        rw [← hm] at hr3
        refine ⟨_, hr3, by simp, ?_⟩
        intro j x hj
        rw [List.getElem?_set]
        by_cases e : i = j
        · have hlt : i < ts0.length := by
            rcases Nat.lt_or_ge i ts0.length with c | c
            · exact c
            · rw [List.getElem?_eq_none c] at h1; contradiction
          rw [if_pos e, if_pos hlt]
          rw [← e, h1] at hj
          simp only [Option.some.injEq] at hj
          subst hj
          exact ⟨_, rfl, rfl, rfl, fun _ => rfl⟩
        · rw [if_neg e]
          exact ⟨x, hj, rfl, rfl, fun c => c⟩
  · have hl := listTasks_ok w s hs
    rw [h] at hl
    simp only [Outcome.returned.injEq] at hl
    rw [hl]
    split
    · exact same _ rfl rfl
    · exact same _ rfl rfl

/-- C10: after `markTaskComplete(2)` in the store of two tasks both tasks are
still there, with their identifiers and titles. -/
theorem operations_keep_tasks_witness :
    readTasksFromFile twoTaskWorld = .ok twoTasks ∧
    ∃ s1, readTasksFromFile
        ⟨some (marshalArray (twoTasks.set 1 ⟨2, utf8 "Пить чай", true⟩)), false, none,
          [sprintln [utf8 "Задача отмечена как выполненная:",
            formatTask ⟨2, utf8 "Пить чай", true⟩]]⟩ = .ok s1 ∧
      twoTasks.length ≤ s1.length ∧
      ∀ (i : Nat) (t : Task), twoTasks[i]? = some t →
        ∃ t1, s1[i]? = some t1 ∧ t1.ID = t.ID ∧ t1.Title = t.Title ∧
          (t.Complete = true → t1.Complete = true) :=
  ⟨by decide,
    operations_keep_tasks twoTaskWorld
      ⟨some (marshalArray (twoTasks.set 1 ⟨2, utf8 "Пить чай", true⟩)), false, none,
        [sprintln [utf8 "Задача отмечена как выполненная:",
          formatTask ⟨2, utf8 "Пить чай", true⟩]]⟩
      twoTasks (by decide) (Or.inr (Or.inl ⟨2, by decide⟩))⟩

/-! ## Further properties of the program -/


/-- When the file write fails, `addTask` halts the process with `log.Fatal` and
the message for a write error, and so does `markTaskComplete` for an identifier
that some stored task has; neither prints its confirmation. -/
theorem write_failure_halts (w : World) (ts : List Task) (left : Option Bytes)
    (hread : readTasksFromFile w = .ok ts) (hwrite : w.writeFault = some left) :
    (∀ title, addTask title w
      = Outcome.fatal { w with file := left } "Ошибка при записи задач:" Error.writeFailed) ∧
    (∀ id, (∃ t ∈ ts, t.ID = id) → markTaskComplete id w
      = Outcome.fatal { w with file := left } "Ошибка при записи задач:" Error.writeFailed) := by
  constructor
  · intro title
    unfold addTask
    rw [hread]
    simp only [writeTasksToFile_fail w _ left hwrite]
  · intro id hid
    obtain ⟨t0, ht0, hid0⟩ := hid
    rcases findTask_spec id ts 0 with ⟨hx, h2⟩ | ⟨i, t, h1, h2, h3, hx⟩
    · exact absurd hid0 (h2 t0 ht0)
    · unfold markTaskComplete
      rw [hread]
      simp only [hx]
      rw [if_neg (by omega)]
      simp only [writeTasksToFile_fail w _ left hwrite]

/-- With a file system that refuses the write and leaves no file, adding a task
at the first start halts. -/
theorem write_failure_halts_witness :
    readTasksFromFile ⟨none, false, some none, []⟩ = .ok [] ∧
    ((∀ title, addTask title ⟨none, false, some none, []⟩
      = Outcome.fatal { (⟨none, false, some none, []⟩ : World) with file := none }
          "Ошибка при записи задач:" Error.writeFailed) ∧
    (∀ id, (∃ t ∈ ([] : List Task), t.ID = id) → markTaskComplete id ⟨none, false, some none, []⟩
      = Outcome.fatal { (⟨none, false, some none, []⟩ : World) with file := none }
          "Ошибка при записи задач:" Error.writeFailed)) :=
  ⟨by decide, write_failure_halts ⟨none, false, some none, []⟩ [] none (by decide) rfl⟩

/-- The file format: one task is written as a JSON array of one object with the
members `id`, `title` and `complete`, indented by two blanks for each level; a
slice without task is written as `[]`, the nil slice as `null`. -/
theorem file_format_example :
    marshalIndent (TaskSlice.slice [⟨1, utf8 "Buy milk", false⟩])
      = utf8 "[\n  \x7b\n    \"id\": 1,\n    \"title\": \"Buy milk\",\n    \"complete\": false\n  \x7d\n]"
    ∧ marshalIndent (TaskSlice.slice []) = utf8 "[]"
    ∧ marshalIndent TaskSlice.nil = utf8 "null" := by
  decide

/-- `markTaskComplete` is idempotent on the store: when some stored task has
the identifier and the writes succeed, marking the identifier a second time
leaves the stored list that the first marking left. -/
theorem markTaskComplete_twice (w : World) (ts : List Task) (id : Int)
    (hread : readTasksFromFile w = .ok ts) (hwrite : w.writeFault = none)
    (hid : ∃ t ∈ ts, t.ID = id) :
    ∃ (w1 w2 : World) (ts1 : List Task),
      markTaskComplete id w = Outcome.returned w1 ∧ readTasksFromFile w1 = .ok ts1 ∧
      markTaskComplete id w1 = Outcome.returned w2 ∧ readTasksFromFile w2 = .ok ts1 := by
  obtain ⟨t0, ht0, hid0⟩ := hid
  rcases findTask_spec id ts 0 with ⟨hx, h2⟩ | ⟨i, t, h1, h2, h3, hx⟩
  · exact absurd hid0 (h2 t0 ht0)
  · have hm := markTaskComplete_present w ts id hread hwrite i t h1 h2 h3
    obtain ⟨w3, hm3, _, hr3⟩ := read_after_mark w ts id hread hwrite i t h1 h2 h3
    rw [hm] at hm3
    simp only [Outcome.returned.injEq] at hm3
    rw [← hm3] at hr3
    have hlt : i < ts.length := by
      rcases Nat.lt_or_ge i ts.length with c | c
      · exact c
      · rw [List.getElem?_eq_none c] at h1; contradiction
    have g1 : (ts.set i { t with Complete := true })[i]? = some { t with Complete := true } :=
      List.getElem?_set_self hlt
    have g3 : ∀ j t1, j < i → (ts.set i { t with Complete := true })[j]? = some t1 →
        t1.ID ≠ id := by
      intro j t1 hj hg
      rw [List.getElem?_set, if_neg (by omega)] at hg
      exact h3 j t1 hj hg
    obtain ⟨w2, hm2, _, hr2⟩ := read_after_mark _ _ id hr3 hwrite i _ g1 h2 g3
    refine ⟨_, w2, _, hm, hr3, hm2, ?_⟩
    rw [hr2, List.set_set]

/-- In the store of two tasks, marking the identifier 2 twice is marking it
once. -/
theorem markTaskComplete_twice_witness :
    readTasksFromFile twoTaskWorld = .ok twoTasks ∧ (∃ t ∈ twoTasks, t.ID = 2) ∧
    ∃ (w1 w2 : World) (ts1 : List Task),
      markTaskComplete 2 twoTaskWorld = Outcome.returned w1 ∧
      readTasksFromFile w1 = .ok ts1 ∧
      markTaskComplete 2 w1 = Outcome.returned w2 ∧ readTasksFromFile w2 = .ok ts1 :=
  ⟨by decide, by decide, markTaskComplete_twice twoTaskWorld twoTasks 2 (by decide) rfl (by decide)⟩

/-- The choice 4 ends the program: `main` prints the menu and the farewell and
returns, whatever input follows, and the file is untouched. -/
theorem main_exit (w : World) (t : Turn) (rest : List Turn) (h0 : t.choiceFailed = false)
    (h4 : t.choice = 4) :
    main w (t :: rest)
      = Outcome.returned ((printMenu w).print (sprintln [utf8 "Выход из программы."])) ∧
    ((printMenu w).print (sprintln [utf8 "Выход из программы."])).file = w.file := by
  refine ⟨?_, rfl⟩
  simp [main, h0, h4]

/-- At the first start the input 4 ends the program. -/
theorem main_exit_witness :
    main freshWorld [⟨false, 4, [], 0⟩]
      = Outcome.returned ((printMenu freshWorld).print (sprintln [utf8 "Выход из программы."])) ∧
    ((printMenu freshWorld).print (sprintln [utf8 "Выход из программы."])).file
      = freshWorld.file :=
  main_exit freshWorld ⟨false, 4, [], 0⟩ [] rfl rfl

/-- Whatever the file holds, every task `readTasksFromFile` returns has an
identifier in the range of `int` and a title that is valid UTF-8; so writing the
tasks back and reading them again gives the same tasks. -/
theorem stored_tasks_well_formed (w : World) (ts : List Task)
    (hread : readTasksFromFile w = .ok ts) :
    (∀ t ∈ ts, InInt64 t.ID ∧ ValidUTF8 t.Title) ∧ unmarshal (marshalArray ts) = .ok ts :=
  ⟨readTasksFromFile_wf w ts hread,
    unmarshal_marshalArray_wf ts (readTasksFromFile_wf w ts hread)⟩

/-- A file edited by hand, with escapes, an unknown member and a lone surrogate
escape, is read as well-formed tasks. -/
theorem stored_tasks_well_formed_witness :
    readTasksFromFile
        ⟨some (utf8 "[\x7b\"ID\": 7, \"x\": [1, null], \"title\": \"a\\u00e9\\ud83d \"\x7d, null]"),
          false, none, []⟩
      = .ok [⟨7, [0x61, 0xC3, 0xA9, 0xEF, 0xBF, 0xBD, 0x20], false⟩, ⟨0, [], false⟩] ∧
    ((∀ t ∈ [(⟨7, [0x61, 0xC3, 0xA9, 0xEF, 0xBF, 0xBD, 0x20], false⟩ : Task), ⟨0, [], false⟩],
        InInt64 t.ID ∧ ValidUTF8 t.Title) ∧
      unmarshal (marshalArray
          [⟨7, [0x61, 0xC3, 0xA9, 0xEF, 0xBF, 0xBD, 0x20], false⟩, ⟨0, [], false⟩])
        = .ok [⟨7, [0x61, 0xC3, 0xA9, 0xEF, 0xBF, 0xBD, 0x20], false⟩, ⟨0, [], false⟩]) :=
  ⟨by decide,
    stored_tasks_well_formed
      ⟨some (utf8 "[\x7b\"ID\": 7, \"x\": [1, null], \"title\": \"a\\u00e9\\ud83d \"\x7d, null]"),
        false, none, []⟩
      [⟨7, [0x61, 0xC3, 0xA9, 0xEF, 0xBF, 0xBD, 0x20], false⟩, ⟨0, [], false⟩] (by decide)⟩

end TodoList
